import Mathlib

/-!
Verification of `mtime-rewind` (src/main.rs) against its specification.

The program is embedded shallowly:

* Byte strings (file contents, SHA-256 digests) are `List Nat`.
* `std::time::SystemTime` values are `Nat` (only their total order and
  equality are used by the program).
* Filesystem paths are `List String` (one component per `String`); the
  absolute path of a file at relative components `p` under root `root`
  is `root ++ p`, matching `root.join(p)`.
* The directory tree under the root is a first-order forest `FsTree`;
  each regular file carries its content, mtime, and boolean flags that
  say whether each of the I/O operations the program performs on it
  (open, read-to-hash, the `metadata` stat inside `Entry::from_file`,
  and the `e.metadata()` stat inside the walkdir `is_file` filter)
  succeeds.
* SHA-256 itself is left abstract: every definition and theorem is
  parametric in the digest function `H : List Nat → List Nat`, since the
  program only ever compares digests for equality.
* `HashMap<PathBuf, Entry>` is an association list `List (Path × Entry)`;
  real `HashMap`s have unique keys, which appears as `NodupKeys`
  hypotheses.  `HashMap::extend` is `extendMap` (later bindings win).
* Fallible operations return `Except Err`.
-/

namespace MtimeRewind

/-- A byte string (file contents or a digest). -/
abbrev Bytes := List Nat

/-- A filesystem path, one component per list element. -/
abbrev Path := List String

/-- `struct Entry { hash: Vec<u8>, mtime: SystemTime }`. -/
structure Entry where
  hash : Bytes
  mtime : Nat
deriving DecidableEq, Repr, Inhabited

/-- The observable state of one regular file on disk, together with
fault flags for each I/O operation the program performs on it:
`openOk` for `File::open`, `readOk` for the buffered `io::copy` into the
hasher, `statOk` for the `fs::metadata` + `modified()` call inside
`Entry::from_file`, and `filterStatOk` for the separate `e.metadata()`
call inside the walkdir `is_file` filter. -/
structure FileStat where
  content : Bytes
  mtime : Nat
  openOk : Bool
  readOk : Bool
  statOk : Bool
  filterStatOk : Bool
deriving DecidableEq, Repr, Inhabited

/-- The directory forest under the root: a list of named entries, each a
regular file or a subdirectory, encoded first-order so that every
traversal below is structural recursion. -/
inductive FsTree where
  | nil : FsTree
  | fileCons (name : String) (st : FileStat) (rest : FsTree) : FsTree
  | dirCons (name : String) (children : FsTree) (rest : FsTree) : FsTree
deriving DecidableEq, Repr

/-- The Rust check `f.starts_with` with the dot character on a file name: the
first character of the name is a dot. -/
def startsWithDot (s : String) : Bool :=
  match s.data with
  | [] => false
  | c :: _ => c == '.'

/-- `e.path().join("CACHEDIR.TAG").exists()` for a directory entry:
the directory directly contains an entry named `CACHEDIR.TAG`. -/
def containsCachedirTag : FsTree → Bool
  | .nil => false
  | .fileCons n _ rest => n == "CACHEDIR.TAG" || containsCachedirTag rest
  | .dirCons n _ rest => n == "CACHEDIR.TAG" || containsCachedirTag rest

/-- The walkdir `filter_entry` predicate for a regular file named `n`:
`f/CACHEDIR.TAG` never exists below a regular file, so only the hidden
check remains. -/
def keepFile (n : String) : Bool := !startsWithDot n

/-- The walkdir `filter_entry` predicate for a directory named `n` with
children `cs`: no `CACHEDIR.TAG` marker inside and not hidden. -/
def keepDir (n : String) (cs : FsTree) : Bool :=
  !containsCachedirTag cs && !startsWithDot n

/-- The walkdir pipeline of `Data::compute`: `min_depth(1)` traversal
with `filter_entry` pruning, `filter_map(|e| e.ok())`, and the final
`filter(|e| e.metadata().map_or(false, |m| m.is_file()))`.  Yields, in
traversal order, the surviving regular files as (relative path, state)
pairs.  A file whose `e.metadata()` call fails is dropped by `map_or`
(`filterStatOk = false`). -/
def walk : FsTree → List (List String × FileStat)
  | .nil => []
  | .fileCons n st rest =>
      (if keepFile n && st.filterStatOk then [([n], st)] else []) ++ walk rest
  | .dirCons n cs rest =>
      (if keepDir n cs then (walk cs).map (fun pst => (n :: pst.1, pst.2)) else [])
        ++ walk rest

/-- The error kinds of the program (`anyhow::Error` values, classified as
in the specification, section 7). -/
inductive Err where
  | ioError
  | notFound
  | deserializeError
  | rootMismatch
deriving DecidableEq, Repr

/-- `Entry::from_file`: open the file, read it through the hasher, then
stat it for the mtime; any failure aborts with an I/O error. -/
def Entry.from_file (H : Bytes → Bytes) (st : FileStat) : Except Err Entry :=
  if st.openOk = false then .error .ioError
  else if st.readOk = false then .error .ioError
  else if st.statOk = false then .error .ioError
  else .ok { hash := H st.content, mtime := st.mtime }

/-- `struct Data { data: HashMap<PathBuf, Entry>, root: PathBuf }`. -/
structure Data where
  data : List (Path × Entry)
  root : Path
deriving DecidableEq, Repr

/-- The hashing loop of `Data::compute`: insert `Entry::from_file` for
each surviving file, keyed by its absolute path, aborting at the first
failure. -/
def computeEntries (H : Bytes → Bytes) (root : Path) :
    List (List String × FileStat) → Except Err (List (Path × Entry))
  | [] => .ok []
  | pst :: rest =>
    match Entry.from_file H pst.2 with
    | .error e => .error e
    | .ok entry =>
      match computeEntries H root rest with
      | .error e => .error e
      | .ok es => .ok ((root ++ pst.1, entry) :: es)

/-- `Data::compute`. -/
def Data.compute (H : Bytes → Bytes) (root : Path) (tree : FsTree) :
    Except Err Data :=
  match computeEntries H root (walk tree) with
  | .error e => .error e
  | .ok es => .ok { data := es, root := root }

/-- `Data::hashes_file`: `root.join(".hashprint")`. -/
def hashes_file (root : Path) : Path := root ++ [".hashprint"]

/-- The possible states of the on-disk state file: absent, present but
not deserializable by bincode, or present and deserializing to a `Data`
value. -/
inductive StateFile where
  | absent : StateFile
  | corrupt : StateFile
  | valid (d : Data) : StateFile
deriving DecidableEq, Repr

/-- `Data::load_cached`: read the state file, deserialize it, and check
that the recorded root equals the requested root. -/
def Data.load_cached (root : Path) (sf : StateFile) : Except Err Data :=
  match sf with
  | .absent => .error .notFound
  | .corrupt => .error .deserializeError
  | .valid d => if d.root = root then .ok d else .error .rootMismatch

/-- First-binding lookup in an association list (the model of
`HashMap::get`). -/
def lookupEntry : List (Path × Entry) → Path → Option Entry
  | [], _ => none
  | (q, e) :: rest, p => if q = p then some e else lookupEntry rest p

/-- `HashMap::insert`: replace the binding of `p` if present (keeping
its position), otherwise append a new binding. -/
def insertEntry : List (Path × Entry) → Path → Entry → List (Path × Entry)
  | [], p, e => [(p, e)]
  | (q, e') :: rest, p, e =>
      if q = p then (p, e) :: rest else (q, e') :: insertEntry rest p e

/-- `HashMap::extend`: insert every binding of `ov` into `m`, later
bindings overwriting earlier ones. -/
def extendMap (m ov : List (Path × Entry)) : List (Path × Entry) :=
  ov.foldl (fun acc pe => insertEntry acc pe.1 pe.2) m

/-- The per-path rewind test of the reconciliation loop: the live mtime
strictly advanced and the content hash is unchanged. -/
def rewindCandidate (se le : Entry) : Bool :=
  decide (se.mtime < le.mtime) && decide (le.hash = se.hash)

/-- The stored bindings that the reconciliation loop identifies as
rewind candidates: stored paths that are also live and pass
`rewindCandidate`. -/
def rewindCandidates (stored live : List (Path × Entry)) :
    List (Path × Entry) :=
  stored.filter (fun pe =>
    match lookupEntry live pe.1 with
    | some le => rewindCandidate pe.2 le
    | none => false)

/-- Keys of an association list are pairwise distinct (always true of a
real `HashMap`). -/
def NodupKeys (m : List (Path × Entry)) : Prop := (m.map Prod.fst).Nodup

/-- The observable outcome of one run, past the snapshot computation:
the `set_file_mtime` calls issued (path, new mtime) in order, the `Data`
value written to the state file (if any), the count printed by
`"{} files rewinded"` (absent on the first-run branch, which does not
print it), and the paths announced by a `"Rewinding ..."` log line. -/
structure RunResult where
  mutations : List (Path × Nat)
  saved : Option Data
  report : Option Nat
  announced : List Path
deriving DecidableEq, Repr

/-- The reconciliation loop and merge of `main` (lines 110-146), given
the live and the successfully loaded stored snapshot. -/
def reconcileCore (dry : Bool) (live stored : Data) : RunResult :=
  let cand := rewindCandidates stored.data live.data
  let edited := if dry then [] else cand
  { mutations := edited.map (fun pe => (pe.1, pe.2.mtime))
    saved := if dry then none else some ⟨extendMap live.data edited, live.root⟩
    report := some edited.length
    announced := cand.map Prod.fst }

/-- The branch of `main` after the live snapshot is computed: if the
state file does not exist, save the live snapshot as-is (even under
`--dry`); otherwise load the stored snapshot and reconcile. -/
def reconcile (dry : Bool) (root : Path) (live : Data) (sf : StateFile) :
    Except Err RunResult :=
  match sf with
  | .absent => .ok { mutations := [], saved := some live, report := none, announced := [] }
  | _ =>
    match Data.load_cached root sf with
    | .error e => .error e
    | .ok stored => .ok (reconcileCore dry live stored)

/-- `{ st with mtime := tm }`, the effect of `filetime::set_file_mtime`
on one file. -/
def setStatMtime (st : FileStat) (tm : Nat) : FileStat :=
  { st with mtime := tm }

/-- Resolve a relative path in the forest and set the mtime of that file;
name resolution stops at the first entry with a matching name (names
are unique in a real directory).  Setting the mtime of a directory is a
no-op here because directory mtimes are not modeled (they can never
enter a snapshot: directories fail the `is_file` filter). -/
def setMtime : FsTree → List String → Nat → FsTree
  | .nil, _, _ => .nil
  | .fileCons n st rest, [m], tm =>
      if n = m then .fileCons n (setStatMtime st tm) rest
      else .fileCons n st (setMtime rest [m] tm)
  | .fileCons n st rest, q, tm => .fileCons n st (setMtime rest q tm)
  | .dirCons n cs rest, m :: q, tm =>
      if n = m then
        (if q = [] then .dirCons n cs rest else .dirCons n (setMtime cs q tm) rest)
      else .dirCons n cs (setMtime rest (m :: q) tm)
  | .dirCons n cs rest, [], _ => .dirCons n cs rest

/-- Strip a leading path prefix, if present. -/
def stripRoot : Path → Path → Option Path
  | [], p => some p
  | _ :: _, [] => none
  | r :: rs, c :: ps => if r = c then stripRoot rs ps else none

/-- Apply one recorded `set_file_mtime(f, t)` call to the forest under
`root`: `f` is an absolute path, so it is resolved against the root
first. -/
def applyMut (root : Path) (t : FsTree) (mu : Path × Nat) : FsTree :=
  match stripRoot root mu.1 with
  | some q => setMtime t q mu.2
  | none => t

/-- The world a run acts on: the directory forest under the root and the
state file. -/
structure World where
  tree : FsTree
  state : StateFile
deriving DecidableEq, Repr

/-- `main`: compute the live snapshot, run the reconcile branch, then
apply its filesystem effects (the mtime mutations in order, then the
state-file write). -/
def main (H : Bytes → Bytes) (dry : Bool) (root : Path) (w : World) :
    Except Err (World × RunResult) :=
  match Data.compute H root w.tree with
  | .error e => .error e
  | .ok live =>
    match reconcile dry root live w.state with
    | .error e => .error e
    | .ok r =>
      .ok ({ tree := r.mutations.foldl (applyMut root) w.tree
             state := match r.saved with
                      | some d => .valid d
                      | none => w.state },
           r)

/-- The names of the top-level entries of a forest. -/
def names : FsTree → List String
  | .nil => []
  | .fileCons n _ rest => n :: names rest
  | .dirCons n _ rest => n :: names rest

/-- Well-formed forest: sibling names are distinct at every level, as in
a real directory tree. -/
def wf : FsTree → Bool
  | .nil => true
  | .fileCons n _ rest => !(names rest).contains n && wf rest
  | .dirCons n cs rest => !(names rest).contains n && wf cs && wf rest

/-- Find the top-level entry with the given name: `some (.inl st)` for a
file, `some (.inr cs)` for a directory with children `cs`. -/
def findEntry : FsTree → String → Option (FileStat ⊕ FsTree)
  | .nil, _ => none
  | .fileCons n st rest, m => if n = m then some (.inl st) else findEntry rest m
  | .dirCons n cs rest, m => if n = m then some (.inr cs) else findEntry rest m

/-- The directory at a nonempty relative path in the forest, as (its
name, its children). -/
def dirAt : List String → FsTree → Option (String × FsTree)
  | [], _ => none
  | [m], t =>
    match findEntry t m with
    | some (.inr cs) => some (m, cs)
    | _ => none
  | m :: rest, t =>
    match findEntry t m with
    | some (.inr cs) => dirAt rest cs
    | _ => none

/-- The key/flag invariant a loaded state file satisfies in reality:
`HashMap` keys are distinct. -/
def WfState : StateFile → Prop
  | .valid d => NodupKeys d.data
  | _ => True

/-- The three I/O operations of `Entry::from_file` all succeed. -/
def flagsOk (st : FileStat) : Bool := st.openOk && st.readOk && st.statOk

/-- The snapshot entry produced for one surviving file when hashing
succeeds. -/
def entryOf (H : Bytes → Bytes) (root : Path) (pst : List String × FileStat) :
    Path × Entry :=
  (root ++ pst.1, { hash := H pst.2.content, mtime := pst.2.mtime })

/-- The effect of one `set_file_mtime` call on one walked file, viewed
at the (relative path, state) level. -/
def updAbs (root : Path) (mu : Path × Nat) (pst : List String × FileStat) :
    List String × FileStat :=
  if root ++ pst.1 = mu.1 then (pst.1, setStatMtime pst.2 mu.2) else pst

/-! ## Association-list lemmas (the `HashMap` model) -/

theorem list_map_congr {α β : Type _} (l : List α) (f g : α → β)
    (h : ∀ x ∈ l, f x = g x) : l.map f = l.map g :=
  List.map_congr_left h

theorem list_map_id_of {α : Type _} (l : List α) (f : α → α)
    (h : ∀ x ∈ l, f x = x) : l.map f = l := by
  rw [list_map_congr l f id h]
  exact List.map_id l

theorem lookupEntry_eq_none (m : List (Path × Entry)) (k : Path) :
    lookupEntry m k = none ↔ k ∉ m.map Prod.fst := by
  induction m with
  | nil => simp [lookupEntry]
  | cons pe rest ih =>
    obtain ⟨q, e⟩ := pe
    by_cases hq : q = k
    · subst hq
      simp [lookupEntry]
    · simp [lookupEntry, hq, ih, Ne.symm hq]

theorem mem_of_lookupEntry (m : List (Path × Entry)) (k : Path) (e : Entry)
    (h : lookupEntry m k = some e) : (k, e) ∈ m := by
  induction m with
  | nil => simp [lookupEntry] at h
  | cons pe rest ih =>
    obtain ⟨q, e'⟩ := pe
    by_cases hq : q = k
    · subst hq
      simp [lookupEntry] at h
      simp [h]
    · simp [lookupEntry, hq] at h
      simp [ih h]

theorem lookupEntry_of_mem (m : List (Path × Entry)) (k : Path) (e : Entry)
    (hm : NodupKeys m) (h : (k, e) ∈ m) : lookupEntry m k = some e := by
  induction m with
  | nil => simp at h
  | cons pe rest ih =>
    obtain ⟨q, e'⟩ := pe
    have hm' : NodupKeys rest := by
      have := (List.nodup_cons.mp hm).2
      exact this
    have hq : q ∉ rest.map Prod.fst := (List.nodup_cons.mp hm).1
    rcases List.mem_cons.mp h with h1 | h1
    · injection h1 with hk he
      simp [lookupEntry, hk, he]
    · by_cases hqk : q = k
      · subst hqk
        exact absurd (List.mem_map_of_mem Prod.fst h1) hq
      · simp [lookupEntry, hqk, ih hm' h1]

theorem lookupEntry_insertEntry (m : List (Path × Entry)) (p k : Path) (e : Entry) :
    lookupEntry (insertEntry m p e) k =
      if p = k then some e else lookupEntry m k := by
  induction m with
  | nil => simp [insertEntry, lookupEntry]
  | cons pe rest ih =>
    obtain ⟨q, e'⟩ := pe
    by_cases hq : q = p
    · subst hq
      by_cases hk : q = k <;> simp [insertEntry, lookupEntry, hk]
    · by_cases hk : q = k
      · subst hk
        have hp : ¬(p = q) := fun h => hq h.symm
        simp [insertEntry, lookupEntry, hq, hp]
      · simp [insertEntry, lookupEntry, hq, hk, ih]

theorem keys_insertEntry_mem (m : List (Path × Entry)) (p : Path) (e : Entry)
    (hp : p ∈ m.map Prod.fst) :
    (insertEntry m p e).map Prod.fst = m.map Prod.fst := by
  induction m with
  | nil => simp at hp
  | cons pe rest ih =>
    obtain ⟨q, e'⟩ := pe
    by_cases hq : q = p
    · subst hq
      simp [insertEntry]
    · have hp' : p ∈ rest.map Prod.fst := by
        simp only [List.map_cons, List.mem_cons] at hp
        rcases hp with h | h
        · exact absurd h.symm hq
        · exact h
      simp [insertEntry, hq, ih hp']

theorem keys_insertEntry_not_mem (m : List (Path × Entry)) (p : Path) (e : Entry)
    (hp : p ∉ m.map Prod.fst) :
    (insertEntry m p e).map Prod.fst = m.map Prod.fst ++ [p] := by
  induction m with
  | nil => simp [insertEntry]
  | cons pe rest ih =>
    obtain ⟨q, e'⟩ := pe
    have hq : ¬(q = p) := by
      intro h
      exact hp (by simp [h])
    have hp' : p ∉ rest.map Prod.fst := fun h => hp (by simp [h])
    simp [insertEntry, hq, ih hp']

theorem NodupKeys_insertEntry (m : List (Path × Entry)) (p : Path) (e : Entry)
    (hm : NodupKeys m) : NodupKeys (insertEntry m p e) := by
  by_cases hp : p ∈ m.map Prod.fst
  · unfold NodupKeys
    rw [keys_insertEntry_mem m p e hp]
    exact hm
  · unfold NodupKeys
    rw [keys_insertEntry_not_mem m p e hp]
    refine List.Nodup.append hm (List.nodup_singleton p) ?_
    intro a ha hb
    rw [List.mem_singleton] at hb
    subst hb
    exact hp ha

theorem extendMap_nil (m : List (Path × Entry)) : extendMap m [] = m := rfl

theorem extendMap_cons (m : List (Path × Entry)) (q : Path) (e : Entry)
    (ov : List (Path × Entry)) :
    extendMap m ((q, e) :: ov) = extendMap (insertEntry m q e) ov := rfl

theorem lookupEntry_extendMap (ov m : List (Path × Entry)) (k : Path)
    (hov : NodupKeys ov) :
    lookupEntry (extendMap m ov) k =
      match lookupEntry ov k with
      | some e => some e
      | none => lookupEntry m k := by
  induction ov generalizing m with
  | nil => simp [extendMap, lookupEntry]
  | cons pe ov' ih =>
    obtain ⟨q, e⟩ := pe
    have hov' : NodupKeys ov' := (List.nodup_cons.mp hov).2
    have hq : q ∉ ov'.map Prod.fst := (List.nodup_cons.mp hov).1
    rw [extendMap_cons, ih _ hov']
    by_cases hk : q = k
    · subst hk
      have h0 : lookupEntry ov' q = none := (lookupEntry_eq_none ov' q).mpr hq
      simp [lookupEntry, h0, lookupEntry_insertEntry]
    · cases h : lookupEntry ov' k with
      | some e' => simp [lookupEntry, hk, h]
      | none => simp [lookupEntry, hk, h, lookupEntry_insertEntry, hk]

theorem NodupKeys_extendMap (ov m : List (Path × Entry)) (hm : NodupKeys m) :
    NodupKeys (extendMap m ov) := by
  induction ov generalizing m with
  | nil => exact hm
  | cons pe ov' ih =>
    obtain ⟨q, e⟩ := pe
    rw [extendMap_cons]
    exact ih _ (NodupKeys_insertEntry m q e hm)

theorem insertEntry_eq_map (m : List (Path × Entry)) (p : Path) (e : Entry)
    (hm : NodupKeys m) (hp : p ∈ m.map Prod.fst) :
    insertEntry m p e = m.map (fun ke => if ke.1 = p then (p, e) else ke) := by
  induction m with
  | nil => simp at hp
  | cons pe rest ih =>
    obtain ⟨q, e'⟩ := pe
    have hm' : NodupKeys rest := (List.nodup_cons.mp hm).2
    have hqn : q ∉ rest.map Prod.fst := (List.nodup_cons.mp hm).1
    by_cases hq : q = p
    · subst hq
      have : rest.map (fun ke => if ke.1 = q then (q, e) else ke) = rest := by
        apply list_map_id_of
        intro ke hke
        have : ke.1 ≠ q := fun h => hqn (h ▸ List.mem_map_of_mem Prod.fst hke)
        simp [this]
      simp [insertEntry, this]
    · have hp' : p ∈ rest.map Prod.fst := by
        simp only [List.map_cons, List.mem_cons] at hp
        rcases hp with h | h
        · exact absurd h.symm hq
        · exact h
      simp [insertEntry, hq, ih hm' hp']

theorem extendMap_eq_map (ov m : List (Path × Entry)) (hm : NodupKeys m)
    (hov : NodupKeys ov) (hsub : ∀ pe ∈ ov, pe.1 ∈ m.map Prod.fst) :
    extendMap m ov = m.map (fun ke =>
      match lookupEntry ov ke.1 with
      | some e => (ke.1, e)
      | none => ke) := by
  induction ov generalizing m with
  | nil =>
    rw [extendMap_nil]
    symm
    apply list_map_id_of
    intro ke _
    simp [lookupEntry]
  | cons pe ov' ih =>
    obtain ⟨q, e⟩ := pe
    have hov' : NodupKeys ov' := (List.nodup_cons.mp hov).2
    have hqn : q ∉ ov'.map Prod.fst := (List.nodup_cons.mp hov).1
    have hqm : q ∈ m.map Prod.fst := hsub (q, e) (by simp)
    have hsub' : ∀ pe ∈ ov', pe.1 ∈ (insertEntry m q e).map Prod.fst := by
      intro pe hpe
      rw [keys_insertEntry_mem m q e hqm]
      exact hsub pe (by simp [hpe])
    rw [extendMap_cons, ih _ (NodupKeys_insertEntry m q e hm) hov' hsub',
      insertEntry_eq_map m q e hm hqm, List.map_map]
    apply list_map_congr
    intro ke _
    by_cases hk : ke.1 = q
    · have h0 : lookupEntry ov' q = none := (lookupEntry_eq_none ov' q).mpr hqn
      simp [Function.comp, hk, lookupEntry, h0]
    · have hk2 : ¬(q = ke.1) := fun h => hk h.symm
      simp [Function.comp, hk, hk2, lookupEntry]

theorem lookupEntry_filter (m : List (Path × Entry))
    (f : Path × Entry → Bool) (k : Path) (hm : NodupKeys m) :
    lookupEntry (m.filter f) k =
      match lookupEntry m k with
      | some e => if f (k, e) then some e else none
      | none => none := by
  induction m with
  | nil => simp [lookupEntry]
  | cons pe rest ih =>
    obtain ⟨q, e'⟩ := pe
    have hm' : NodupKeys rest := (List.nodup_cons.mp hm).2
    have hqn : q ∉ rest.map Prod.fst := (List.nodup_cons.mp hm).1
    by_cases hq : q = k
    · subst hq
      by_cases hf : f (q, e')
      · simp [List.filter, hf, lookupEntry]
      · have h0 : lookupEntry (rest.filter f) q = none := by
          rw [lookupEntry_eq_none]
          intro hmem
          apply hqn
          rcases List.mem_map.mp hmem with ⟨ke, hke, hfst⟩
          exact hfst ▸ List.mem_map_of_mem Prod.fst (List.mem_of_mem_filter hke)
        simp [List.filter, hf, lookupEntry, h0]
    · by_cases hf : f (q, e') <;>
        simp [List.filter, hf, lookupEntry, hq, ih hm']

theorem NodupKeys_filter (m : List (Path × Entry)) (f : Path × Entry → Bool)
    (hm : NodupKeys m) : NodupKeys (m.filter f) :=
  List.Nodup.sublist (List.Sublist.map Prod.fst (List.filter_sublist m)) hm

/-! ## Lemmas about the walkdir traversal -/

theorem walk_path_ne_nil (t : FsTree) :
    ∀ pst ∈ walk t, pst.1 ≠ [] := by
  induction t with
  | nil => intro pst h; simp [walk] at h
  | fileCons n st rest ih =>
    intro pst h
    rcases List.mem_append.mp h with h1 | h1
    · by_cases hk : keepFile n && st.filterStatOk
      · simp [walk, hk] at h1
        simp [h1]
      · simp [walk, hk] at h1
    · exact ih pst h1
  | dirCons n cs rest ihcs ihrest =>
    intro pst h
    rcases List.mem_append.mp h with h1 | h1
    · by_cases hk : keepDir n cs
      · simp only [walk, hk, if_true] at h1
        rcases List.mem_map.mp h1 with ⟨pst', _, hmap⟩
        rw [← hmap]
        simp
      · simp [walk, hk] at h1
    · exact ihrest pst h1

theorem walk_head (t : FsTree) :
    ∀ pst ∈ walk t, ∃ hd tl, pst.1 = hd :: tl ∧ hd ∈ names t ∧
      startsWithDot hd = false := by
  induction t with
  | nil => intro pst h; simp [walk] at h
  | fileCons n st rest ih =>
    intro pst h
    rcases List.mem_append.mp h with h1 | h1
    · by_cases hk : keepFile n && st.filterStatOk
      · simp [walk, hk] at h1
        refine ⟨n, [], by simp [h1], by simp [names], ?_⟩
        have := (Bool.and_eq_true ..).mp hk
        simpa [keepFile] using this.1
      · simp [walk, hk] at h1
    · obtain ⟨hd, tl, h2, h3, h4⟩ := ih pst h1
      exact ⟨hd, tl, h2, by simp [names, h3], h4⟩
  | dirCons n cs rest ihcs ihrest =>
    intro pst h
    rcases List.mem_append.mp h with h1 | h1
    · by_cases hk : keepDir n cs
      · simp only [walk, hk, if_true] at h1
        rcases List.mem_map.mp h1 with ⟨pst', _, hmap⟩
        refine ⟨n, pst'.1, by rw [← hmap], by simp [names], ?_⟩
        have := (Bool.and_eq_true ..).mp ((by simpa [keepDir] using hk :
          (!containsCachedirTag cs && !startsWithDot n) = true))
        simpa using this.2
      · simp [walk, hk] at h1
    · obtain ⟨hd, tl, h2, h3, h4⟩ := ihrest pst h1
      exact ⟨hd, tl, h2, by simp [names, h3], h4⟩

theorem name_not_mem_of_not_contains (l : List String) (n : String)
    (h : (l.contains n) = false) : n ∉ l := by
  intro hmem
  rw [List.contains_eq_any_beq] at h
  have : l.any (fun x => n == x) = true := List.any_eq_true.mpr ⟨n, hmem, by simp⟩
  rw [this] at h
  cases h

theorem walk_nodup (t : FsTree) (hwf : wf t = true) :
    ((walk t).map Prod.fst).Nodup := by
  induction t with
  | nil => simp [walk]
  | fileCons n st rest ih =>
    have h1 : ((names rest).contains n) = false ∧ wf rest = true := by
      have := (Bool.and_eq_true ..).mp hwf
      exact ⟨by simpa using this.1, this.2⟩
    rw [show walk (.fileCons n st rest) =
      (if keepFile n && st.filterStatOk then [([n], st)] else []) ++ walk rest
      from rfl, List.map_append]
    refine List.Nodup.append ?_ (ih h1.2) ?_
    · by_cases hk : keepFile n && st.filterStatOk <;> simp [hk]
    · intro p hp1 hp2
      by_cases hk : keepFile n && st.filterStatOk
      · simp [hk] at hp1
        rcases List.mem_map.mp hp2 with ⟨pst, hpst, hfst⟩
        obtain ⟨hd, tl, hcons, hmem, _⟩ := walk_head rest pst hpst
        have h5 : hd :: tl = [n] := by rw [← hcons, hfst, hp1]
        injection h5 with h6 _
        exact name_not_mem_of_not_contains _ _ h1.1 (h6 ▸ hmem)
      · simp [hk] at hp1
  | dirCons n cs rest ihcs ihrest =>
    have h1 : ((names rest).contains n) = false ∧ wf cs = true ∧ wf rest = true := by
      have h2 := (Bool.and_eq_true ..).mp hwf
      have h3 := (Bool.and_eq_true ..).mp h2.1
      exact ⟨by simpa using h3.1, h3.2, h2.2⟩
    rw [show walk (.dirCons n cs rest) =
      (if keepDir n cs then (walk cs).map (fun pst => (n :: pst.1, pst.2)) else [])
        ++ walk rest from rfl, List.map_append]
    refine List.Nodup.append ?_ (ihrest h1.2.2) ?_
    · by_cases hk : keepDir n cs
      · simp only [hk, if_true]
        have heq : ((walk cs).map (fun pst => (n :: pst.1, pst.2))).map Prod.fst
            = ((walk cs).map Prod.fst).map (fun p => n :: p) := by
          rw [List.map_map, List.map_map]
          apply list_map_congr
          intro pst _
          rfl
        rw [heq]
        refine List.Nodup.map ?_ (ihcs h1.2.1)
        intro a b hab
        simpa using hab
      · simp [hk]
    · intro p hp1 hp2
      by_cases hk : keepDir n cs
      · simp only [hk, if_true] at hp1
        rcases List.mem_map.mp hp1 with ⟨q, hq, hfst⟩
        rcases List.mem_map.mp hq with ⟨pst, _, hmap⟩
        rcases List.mem_map.mp hp2 with ⟨pst', hpst', hfst'⟩
        obtain ⟨hd, tl, hcons, hmem, _⟩ := walk_head rest pst' hpst'
        have hphd : p = n :: pst.1 := by rw [← hfst, ← hmap]
        have : hd = n := by
          have h4 : p = hd :: tl := by rw [← hfst', hcons]
          rw [hphd] at h4
          injection h4 with h5 _
          exact h5.symm
        exact name_not_mem_of_not_contains _ _ h1.1 (this ▸ hmem)
      · simp [hk] at hp1

/-! ## Lemmas about `Entry::from_file` and `Data::compute` -/

theorem from_file_ok (H : Bytes → Bytes) (st : FileStat)
    (h : flagsOk st = true) :
    Entry.from_file H st = .ok { hash := H st.content, mtime := st.mtime } := by
  have h1 := (Bool.and_eq_true ..).mp h
  have h2 := (Bool.and_eq_true ..).mp h1.1
  simp [Entry.from_file, h1.2, h2.1, h2.2]

theorem from_file_err (H : Bytes → Bytes) (st : FileStat)
    (h : flagsOk st = false) :
    Entry.from_file H st = .error .ioError := by
  unfold Entry.from_file
  unfold flagsOk at h
  cases ho : st.openOk <;> cases hr : st.readOk <;> cases hs : st.statOk <;>
    simp [ho, hr, hs] <;> simp [ho, hr, hs] at h

theorem computeEntries_ok (H : Bytes → Bytes) (root : Path)
    (l : List (List String × FileStat))
    (h : ∀ pst ∈ l, flagsOk pst.2 = true) :
    computeEntries H root l = .ok (l.map (entryOf H root)) := by
  induction l with
  | nil => simp [computeEntries]
  | cons pst rest ih =>
    rw [show computeEntries H root (pst :: rest) =
      (match Entry.from_file H pst.2 with
       | .error e => .error e
       | .ok entry =>
         match computeEntries H root rest with
         | .error e => .error e
         | .ok es => .ok ((root ++ pst.1, entry) :: es)) from rfl]
    rw [from_file_ok H pst.2 (h pst (by simp)), ih (fun x hx => h x (by simp [hx]))]
    rfl

theorem computeEntries_err (H : Bytes → Bytes) (root : Path)
    (l : List (List String × FileStat))
    (h : ∃ pst ∈ l, flagsOk pst.2 = false) :
    computeEntries H root l = .error .ioError := by
  induction l with
  | nil => simp at h
  | cons pst rest ih =>
    rw [show computeEntries H root (pst :: rest) =
      (match Entry.from_file H pst.2 with
       | .error e => .error e
       | .ok entry =>
         match computeEntries H root rest with
         | .error e => .error e
         | .ok es => .ok ((root ++ pst.1, entry) :: es)) from rfl]
    by_cases h0 : flagsOk pst.2 = false
    · rw [from_file_err H pst.2 h0]
    · have h0' : flagsOk pst.2 = true := by
        cases hq : flagsOk pst.2
        · exact absurd hq h0
        · rfl
      rcases h with ⟨pst', hmem, hflag⟩
      have hmem' : pst' ∈ rest := by
        rcases List.mem_cons.mp hmem with h2 | h2
        · rw [h2] at hflag; rw [hflag] at h0'; cases h0'
        · exact h2
      rw [from_file_ok H pst.2 h0', ih ⟨pst', hmem', hflag⟩]

theorem compute_err_iff (H : Bytes → Bytes) (root : Path) (tree : FsTree) :
    Data.compute H root tree = .error .ioError ↔
      ∃ pst ∈ walk tree, flagsOk pst.2 = false := by
  constructor
  · intro h
    by_cases hall : ∀ pst ∈ walk tree, flagsOk pst.2 = true
    · rw [show Data.compute H root tree =
        (match computeEntries H root (walk tree) with
         | .error e => .error e
         | .ok es => .ok { data := es, root := root }) from rfl,
        computeEntries_ok H root (walk tree) hall] at h
      cases h
    · push_neg at hall
      rcases hall with ⟨pst, hmem, hne⟩
      exact ⟨pst, hmem, by simpa using hne⟩
  · intro h
    rw [show Data.compute H root tree =
      (match computeEntries H root (walk tree) with
       | .error e => .error e
       | .ok es => .ok { data := es, root := root }) from rfl,
      computeEntries_err H root (walk tree) h]

theorem compute_ok_data (H : Bytes → Bytes) (root : Path) (tree : FsTree)
    (dat : Data) (h : Data.compute H root tree = .ok dat) :
    dat.data = (walk tree).map (entryOf H root) ∧ dat.root = root := by
  by_cases hall : ∀ pst ∈ walk tree, flagsOk pst.2 = true
  · rw [show Data.compute H root tree =
      (match computeEntries H root (walk tree) with
       | .error e => .error e
       | .ok es => .ok { data := es, root := root }) from rfl,
      computeEntries_ok H root (walk tree) hall] at h
    injection h with h1
    rw [← h1]
    exact ⟨rfl, rfl⟩
  · exfalso
    push_neg at hall
    rcases hall with ⟨pst, hmem, hne⟩
    have := (compute_err_iff H root tree).mpr ⟨pst, hmem, by simpa using hne⟩
    rw [this] at h
    cases h

theorem compute_keys (H : Bytes → Bytes) (root : Path) (tree : FsTree)
    (dat : Data) (h : Data.compute H root tree = .ok dat) :
    dat.data.map Prod.fst = ((walk tree).map Prod.fst).map (fun p => root ++ p) := by
  rw [(compute_ok_data H root tree dat h).1, List.map_map, List.map_map]
  apply list_map_congr
  intro pst _
  rfl

theorem compute_keys_nodup (H : Bytes → Bytes) (root : Path) (tree : FsTree)
    (dat : Data) (hwf : wf tree = true) (h : Data.compute H root tree = .ok dat) :
    NodupKeys dat.data := by
  unfold NodupKeys
  rw [compute_keys H root tree dat h]
  refine List.Nodup.map ?_ (walk_nodup tree hwf)
  intro a b hab
  exact List.append_cancel_left hab

theorem lookup_compute (H : Bytes → Bytes) (root : Path) (tree : FsTree)
    (dat : Data) (pst : List String × FileStat) (hwf : wf tree = true)
    (h : Data.compute H root tree = .ok dat) (hmem : pst ∈ walk tree) :
    lookupEntry dat.data (root ++ pst.1) =
      some { hash := H pst.2.content, mtime := pst.2.mtime } := by
  apply lookupEntry_of_mem _ _ _ (compute_keys_nodup H root tree dat hwf h)
  rw [(compute_ok_data H root tree dat h).1]
  exact List.mem_map_of_mem (entryOf H root) hmem

/-! ## Lemmas about `set_file_mtime` and the traversal -/

theorem walk_path_head_not_mem (t : FsTree) (m : String) (q' : List String)
    (h : ((names t).contains m) = false) :
    ∀ pst ∈ walk t, pst.1 ≠ m :: q' := by
  intro pst hpst heq
  obtain ⟨hd, tl, hcons, hmem, _⟩ := walk_head t pst hpst
  rw [heq] at hcons
  injection hcons with h1 _
  have h2 : m ∈ names t := by rw [h1]; exact hmem
  exact name_not_mem_of_not_contains _ _ h h2

theorem setMtime_nil (t : FsTree) (tm : Nat) : setMtime t [] tm = t := by
  induction t with
  | nil => rfl
  | fileCons n st rest ih =>
    show FsTree.fileCons n st (setMtime rest [] tm) = _
    rw [ih]
  | dirCons n cs rest ihcs ihrest => rfl

theorem names_setMtime (t : FsTree) (q : List String) (tm : Nat) :
    names (setMtime t q tm) = names t := by
  induction t generalizing q with
  | nil => cases q <;> rfl
  | fileCons n st rest ih =>
    match q with
    | [] => rw [setMtime_nil]
    | [m] =>
      by_cases hm : n = m
      · simp [setMtime, hm, names]
      · simp [setMtime, hm, names, ih]
    | m :: m2 :: q2 =>
      show names (.fileCons n st (setMtime rest (m :: m2 :: q2) tm)) = _
      simp [names, ih]
  | dirCons n cs rest ihcs ihrest =>
    match q with
    | [] => rw [setMtime_nil]
    | m :: q' =>
      by_cases hm : n = m
      · by_cases hq : q' = [] <;> simp [setMtime, hm, hq, names]
      · simp [setMtime, hm, names, ihrest]

theorem containsCachedirTag_setMtime (t : FsTree) (q : List String) (tm : Nat) :
    containsCachedirTag (setMtime t q tm) = containsCachedirTag t := by
  induction t generalizing q with
  | nil => cases q <;> rfl
  | fileCons n st rest ih =>
    match q with
    | [] => rw [setMtime_nil]
    | [m] =>
      by_cases hm : n = m
      · simp [setMtime, hm, containsCachedirTag]
      · simp [setMtime, hm, containsCachedirTag, ih]
    | m :: m2 :: q2 =>
      show containsCachedirTag (.fileCons n st (setMtime rest (m :: m2 :: q2) tm)) = _
      simp [containsCachedirTag, ih]
  | dirCons n cs rest ihcs ihrest =>
    match q with
    | [] => rw [setMtime_nil]
    | m :: q' =>
      by_cases hm : n = m
      · by_cases hq : q' = [] <;> simp [setMtime, hm, hq, containsCachedirTag]
      · simp [setMtime, hm, containsCachedirTag, ihrest]

theorem wf_setMtime (t : FsTree) (q : List String) (tm : Nat) :
    wf (setMtime t q tm) = wf t := by
  induction t generalizing q with
  | nil => cases q <;> rfl
  | fileCons n st rest ih =>
    match q with
    | [] => rw [setMtime_nil]
    | [m] =>
      by_cases hm : n = m
      · simp [setMtime, hm, wf]
      · simp [setMtime, hm, wf, ih, names_setMtime]
    | m :: m2 :: q2 =>
      show wf (.fileCons n st (setMtime rest (m :: m2 :: q2) tm)) = _
      simp [wf, ih, names_setMtime]
  | dirCons n cs rest ihcs ihrest =>
    match q with
    | [] => rw [setMtime_nil]
    | m :: q' =>
      by_cases hm : n = m
      · by_cases hq : q' = [] <;> simp [setMtime, hm, hq, wf, ihcs]
      · simp [setMtime, hm, wf, ihrest, names_setMtime]

theorem walk_setMtime (t : FsTree) (q : List String) (tm : Nat)
    (hwf : wf t = true) :
    walk (setMtime t q tm) =
      (walk t).map (fun pst =>
        if pst.1 = q then (pst.1, setStatMtime pst.2 tm) else pst) := by
  induction t generalizing q with
  | nil => cases q <;> rfl
  | fileCons n st rest ih =>
    have h1 : ((names rest).contains n) = false ∧ wf rest = true := by
      have := (Bool.and_eq_true ..).mp hwf
      exact ⟨by simpa using this.1, this.2⟩
    have hwalk : walk (.fileCons n st rest) =
        (if keepFile n && st.filterStatOk then [([n], st)] else []) ++ walk rest :=
      rfl
    match q with
    | [] =>
      rw [setMtime_nil]
      symm
      apply list_map_id_of
      intro pst hpst
      simp [walk_path_ne_nil _ pst hpst]
    | [m] =>
      by_cases hm : n = m
      · subst hm
        have hrest_id : (walk rest).map (fun pst =>
            if pst.1 = [n] then (pst.1, setStatMtime pst.2 tm) else pst) = walk rest := by
          apply list_map_id_of
          intro pst hpst
          simp [walk_path_head_not_mem rest n [] h1.1 pst hpst]
        have hset : setMtime (.fileCons n st rest) [n] tm =
            .fileCons n (setStatMtime st tm) rest := by
          simp [setMtime]
        rw [hset, hwalk, List.map_append, hrest_id,
          show walk (.fileCons n (setStatMtime st tm) rest) =
            (if keepFile n && (setStatMtime st tm).filterStatOk
              then [([n], setStatMtime st tm)] else []) ++ walk rest from rfl]
        by_cases hkf : keepFile n && st.filterStatOk <;>
          simp [setStatMtime, hkf]
      · have hset : setMtime (.fileCons n st rest) [m] tm =
            .fileCons n st (setMtime rest [m] tm) := by
          simp [setMtime, hm]
        have hopt : ((if keepFile n && st.filterStatOk then [([n], st)] else []) :
            List (List String × FileStat)).map (fun pst =>
              if pst.1 = [m] then (pst.1, setStatMtime pst.2 tm) else pst)
            = (if keepFile n && st.filterStatOk then [([n], st)] else []) := by
          by_cases hkf : keepFile n && st.filterStatOk <;> simp [hkf, hm]
        rw [hset, show walk (.fileCons n st (setMtime rest [m] tm)) =
            (if keepFile n && st.filterStatOk then [([n], st)] else [])
              ++ walk (setMtime rest [m] tm) from rfl,
          ih [m] h1.2, hwalk, List.map_append, hopt]
    | m :: m2 :: q2 =>
      have hset : setMtime (.fileCons n st rest) (m :: m2 :: q2) tm =
          .fileCons n st (setMtime rest (m :: m2 :: q2) tm) := rfl
      have hopt : ((if keepFile n && st.filterStatOk then [([n], st)] else []) :
          List (List String × FileStat)).map (fun pst =>
            if pst.1 = m :: m2 :: q2 then (pst.1, setStatMtime pst.2 tm) else pst)
          = (if keepFile n && st.filterStatOk then [([n], st)] else []) := by
        by_cases hkf : keepFile n && st.filterStatOk <;> simp [hkf]
      rw [hset, show walk (.fileCons n st (setMtime rest (m :: m2 :: q2) tm)) =
          (if keepFile n && st.filterStatOk then [([n], st)] else [])
            ++ walk (setMtime rest (m :: m2 :: q2) tm) from rfl,
        ih (m :: m2 :: q2) h1.2, hwalk, List.map_append, hopt]
  | dirCons n cs rest ihcs ihrest =>
    have h1 : ((names rest).contains n) = false ∧ wf cs = true ∧ wf rest = true := by
      have h2 := (Bool.and_eq_true ..).mp hwf
      have h3 := (Bool.and_eq_true ..).mp h2.1
      exact ⟨by simpa using h3.1, h3.2, h2.2⟩
    have hwalk : walk (.dirCons n cs rest) =
        (if keepDir n cs then (walk cs).map (fun pst => (n :: pst.1, pst.2)) else [])
          ++ walk rest := rfl
    match q with
    | [] =>
      rw [setMtime_nil]
      symm
      apply list_map_id_of
      intro pst hpst
      simp [walk_path_ne_nil _ pst hpst]
    | m :: q' =>
      by_cases hm : n = m
      · subst hm
        by_cases hq : q' = []
        · subst hq
          have hset : setMtime (.dirCons n cs rest) [n] tm = .dirCons n cs rest := by
            simp [setMtime]
          rw [hset, hwalk, List.map_append]
          have hrest_id : (walk rest).map (fun pst =>
              if pst.1 = [n] then (pst.1, setStatMtime pst.2 tm) else pst)
              = walk rest := by
            apply list_map_id_of
            intro pst hpst
            simp [walk_path_head_not_mem rest n [] h1.1 pst hpst]
          have hdir_id : ((if keepDir n cs
                then (walk cs).map (fun pst => (n :: pst.1, pst.2)) else []) :
              List (List String × FileStat)).map (fun pst =>
                if pst.1 = [n] then (pst.1, setStatMtime pst.2 tm) else pst)
              = (if keepDir n cs then (walk cs).map (fun pst => (n :: pst.1, pst.2))
                  else []) := by
            by_cases hk : keepDir n cs
            · simp only [hk, if_true, List.map_map]
              apply list_map_congr
              intro pst hpst
              have : n :: pst.1 ≠ [n] := by
                intro hcontra
                injection hcontra with _ h5
                exact walk_path_ne_nil cs pst hpst h5
              simp [Function.comp, this]
            · simp [hk]
          rw [hrest_id, hdir_id]
        · have hset : setMtime (.dirCons n cs rest) (n :: q') tm =
              .dirCons n (setMtime cs q' tm) rest := by
            simp [setMtime, hq]
          have hkeep : keepDir n (setMtime cs q' tm) = keepDir n cs := by
            simp [keepDir, containsCachedirTag_setMtime]
          rw [hset, show walk (.dirCons n (setMtime cs q' tm) rest) =
              (if keepDir n (setMtime cs q' tm)
                then (walk (setMtime cs q' tm)).map (fun pst => (n :: pst.1, pst.2))
                else []) ++ walk rest from rfl,
            hkeep, ihcs q' h1.2.1, hwalk, List.map_append]
          have hrest_id : (walk rest).map (fun pst =>
              if pst.1 = n :: q' then (pst.1, setStatMtime pst.2 tm) else pst)
              = walk rest := by
            apply list_map_id_of
            intro pst hpst
            simp [walk_path_head_not_mem rest n q' h1.1 pst hpst]
          rw [hrest_id]
          by_cases hk : keepDir n cs
          · simp only [hk, if_true, List.map_map]
            congr 1
            apply list_map_congr
            intro pst _
            by_cases hpq : pst.1 = q'
            · simp [Function.comp, hpq]
            · have : ¬(n :: pst.1 = n :: q') := by
                intro hcontra
                injection hcontra with _ h5
                exact hpq h5
              simp [Function.comp, hpq, this]
          · simp [hk]
      · have hset : setMtime (.dirCons n cs rest) (m :: q') tm =
            .dirCons n cs (setMtime rest (m :: q') tm) := by
          simp [setMtime, hm]
        rw [hset, show walk (.dirCons n cs (setMtime rest (m :: q') tm)) =
            (if keepDir n cs then (walk cs).map (fun pst => (n :: pst.1, pst.2))
              else []) ++ walk (setMtime rest (m :: q') tm) from rfl,
          ihrest (m :: q') h1.2.2, hwalk, List.map_append]
        have hdir_id : ((if keepDir n cs
              then (walk cs).map (fun pst => (n :: pst.1, pst.2)) else []) :
            List (List String × FileStat)).map (fun pst =>
              if pst.1 = m :: q' then (pst.1, setStatMtime pst.2 tm) else pst)
            = (if keepDir n cs then (walk cs).map (fun pst => (n :: pst.1, pst.2))
                else []) := by
          by_cases hk : keepDir n cs
          · simp only [hk, if_true, List.map_map]
            apply list_map_congr
            intro pst _
            have : ¬(n :: pst.1 = m :: q') := by
              intro hcontra
              injection hcontra with h5 _
              exact hm h5
            simp [Function.comp, this]
          · simp [hk]
        rw [hdir_id]

theorem stripRoot_append (root q : Path) : stripRoot root (root ++ q) = some q := by
  induction root with
  | nil => rfl
  | cons r rs ih => simp [stripRoot, ih]

theorem stripRoot_eq_some (root p q : Path) (h : stripRoot root p = some q) :
    p = root ++ q := by
  induction root generalizing p with
  | nil =>
    simp [stripRoot] at h
    simp [h]
  | cons r rs ih =>
    match p with
    | [] => simp [stripRoot] at h
    | c :: ps =>
      by_cases hc : r = c
      · subst hc
        simp only [stripRoot, if_pos rfl] at h
        simp [ih ps h]
      · simp [stripRoot, hc] at h

theorem wf_applyMut (root : Path) (t : FsTree) (mu : Path × Nat) :
    wf (applyMut root t mu) = wf t := by
  unfold applyMut
  cases h : stripRoot root mu.1 with
  | some q => exact wf_setMtime t q mu.2
  | none => rfl

theorem walk_applyMut (root : Path) (t : FsTree) (mu : Path × Nat)
    (hwf : wf t = true) :
    walk (applyMut root t mu) = (walk t).map (updAbs root mu) := by
  unfold applyMut
  cases h : stripRoot root mu.1 with
  | some q =>
    rw [walk_setMtime t q mu.2 hwf]
    apply list_map_congr
    intro pst _
    have hq : mu.1 = root ++ q := stripRoot_eq_some root mu.1 q h
    unfold updAbs
    by_cases hp : pst.1 = q
    · subst hp
      simp [hq]
    · have : ¬(root ++ pst.1 = mu.1) := by
        rw [hq]
        intro hcontra
        exact hp (List.append_cancel_left hcontra)
      simp [hp, this]
  | none =>
    symm
    apply list_map_id_of
    intro pst _
    unfold updAbs
    have : ¬(root ++ pst.1 = mu.1) := by
      intro hcontra
      rw [← hcontra, stripRoot_append] at h
      cases h
    simp [this]

theorem wf_foldl_applyMut (root : Path) (ms : List (Path × Nat)) (t : FsTree) :
    wf (ms.foldl (applyMut root) t) = wf t := by
  induction ms generalizing t with
  | nil => rfl
  | cons mu ms' ih => rw [List.foldl_cons, ih, wf_applyMut]

theorem walk_foldl_applyMut (root : Path) (ms : List (Path × Nat)) (t : FsTree)
    (hwf : wf t = true) :
    walk (ms.foldl (applyMut root) t) =
      (walk t).map (fun pst => ms.foldl (fun x mu => updAbs root mu x) pst) := by
  induction ms generalizing t with
  | nil =>
    symm
    exact list_map_id_of _ _ (fun x _ => rfl)
  | cons mu ms' ih =>
    rw [List.foldl_cons, ih (applyMut root t mu) (by rw [wf_applyMut]; exact hwf),
      walk_applyMut root t mu hwf, List.map_map]
    apply list_map_congr
    intro pst _
    rfl

theorem updAbs_fst (root : Path) (mu : Path × Nat) (pst : List String × FileStat) :
    (updAbs root mu pst).1 = pst.1 := by
  unfold updAbs
  by_cases h : root ++ pst.1 = mu.1 <;> simp [h]

theorem updAbs_content (root : Path) (mu : Path × Nat)
    (pst : List String × FileStat) :
    (updAbs root mu pst).2.content = pst.2.content := by
  unfold updAbs
  by_cases h : root ++ pst.1 = mu.1 <;> simp [h, setStatMtime]

theorem updAbs_flagsOk (root : Path) (mu : Path × Nat)
    (pst : List String × FileStat) :
    flagsOk (updAbs root mu pst).2 = flagsOk pst.2 := by
  unfold updAbs
  by_cases h : root ++ pst.1 = mu.1 <;> simp [h, setStatMtime, flagsOk]

theorem updAbs_filterStatOk (root : Path) (mu : Path × Nat)
    (pst : List String × FileStat) :
    (updAbs root mu pst).2.filterStatOk = pst.2.filterStatOk := by
  unfold updAbs
  by_cases h : root ++ pst.1 = mu.1 <;> simp [h, setStatMtime]

theorem foldl_updAbs_fst (root : Path) (ms : List (Path × Nat))
    (pst : List String × FileStat) :
    (ms.foldl (fun x mu => updAbs root mu x) pst).1 = pst.1 := by
  induction ms generalizing pst with
  | nil => rfl
  | cons mu ms' ih => rw [List.foldl_cons, ih, updAbs_fst]

theorem foldl_updAbs_content (root : Path) (ms : List (Path × Nat))
    (pst : List String × FileStat) :
    (ms.foldl (fun x mu => updAbs root mu x) pst).2.content = pst.2.content := by
  induction ms generalizing pst with
  | nil => rfl
  | cons mu ms' ih => rw [List.foldl_cons, ih, updAbs_content]

theorem foldl_updAbs_flagsOk (root : Path) (ms : List (Path × Nat))
    (pst : List String × FileStat) :
    flagsOk (ms.foldl (fun x mu => updAbs root mu x) pst).2 = flagsOk pst.2 := by
  induction ms generalizing pst with
  | nil => rfl
  | cons mu ms' ih => rw [List.foldl_cons, ih, updAbs_flagsOk]

theorem foldl_updAbs_nomatch (root : Path) (ms : List (Path × Nat))
    (pst : List String × FileStat)
    (h : ∀ mu ∈ ms, mu.1 ≠ root ++ pst.1) :
    ms.foldl (fun x mu => updAbs root mu x) pst = pst := by
  induction ms with
  | nil => rfl
  | cons mu ms' ih =>
    have h0 : updAbs root mu pst = pst := by
      unfold updAbs
      have : ¬(root ++ pst.1 = mu.1) := fun hc => h mu (by simp) hc.symm
      simp [this]
    rw [List.foldl_cons, h0, ih (fun x hx => h x (by simp [hx]))]

theorem foldl_updAbsCand_nomatch (root : Path) (cand : List (Path × Entry))
    (pst : List String × FileStat)
    (h : ∀ pe ∈ cand, pe.1 ≠ root ++ pst.1) :
    cand.foldl (fun x pe => updAbs root (pe.1, pe.2.mtime) x) pst = pst := by
  induction cand with
  | nil => rfl
  | cons pe cand' ih =>
    have h0 : updAbs root (pe.1, pe.2.mtime) pst = pst := by
      unfold updAbs
      have : ¬(root ++ pst.1 = pe.1) := fun hc => h pe (by simp) hc.symm
      simp [this]
    rw [List.foldl_cons, h0, ih (fun x hx => h x (by simp [hx]))]

theorem foldl_updAbs_cand (root : Path) (cand : List (Path × Entry))
    (pst : List String × FileStat) (hc : NodupKeys cand) :
    cand.foldl (fun x pe => updAbs root (pe.1, pe.2.mtime) x) pst =
      match lookupEntry cand (root ++ pst.1) with
      | some se => (pst.1, setStatMtime pst.2 se.mtime)
      | none => pst := by
  induction cand with
  | nil => rfl
  | cons pe cand' ih =>
    obtain ⟨k, se⟩ := pe
    have hc' : NodupKeys cand' := (List.nodup_cons.mp hc).2
    have hkn : k ∉ cand'.map Prod.fst := (List.nodup_cons.mp hc).1
    by_cases hk : root ++ pst.1 = k
    · have h0 : updAbs root (k, se.mtime) pst = (pst.1, setStatMtime pst.2 se.mtime) := by
        unfold updAbs
        simp [hk]
      have h1 : cand'.foldl (fun x pe => updAbs root (pe.1, pe.2.mtime) x)
          (pst.1, setStatMtime pst.2 se.mtime) = (pst.1, setStatMtime pst.2 se.mtime) := by
        apply foldl_updAbsCand_nomatch
        intro pe' hpe' hcontra
        apply hkn
        have h5 : pe'.1 = k := hcontra.trans hk
        exact h5 ▸ List.mem_map_of_mem Prod.fst hpe'
      have h2 : lookupEntry ((k, se) :: cand') (root ++ pst.1) = some se := by
        simp [lookupEntry, hk.symm]
      rw [List.foldl_cons, h0, h1, h2]
    · have h0 : updAbs root (k, se.mtime) pst = pst := by
        unfold updAbs
        simp [hk]
      have h2 : lookupEntry ((k, se) :: cand') (root ++ pst.1) =
          lookupEntry cand' (root ++ pst.1) := by
        have : ¬(k = root ++ pst.1) := fun h => hk h.symm
        simp [lookupEntry, this]
      rw [List.foldl_cons, h0, ih hc', h2]

theorem rewindCandidates_self (m : List (Path × Entry)) (hm : NodupKeys m) :
    rewindCandidates m m = [] := by
  unfold rewindCandidates
  rw [List.filter_eq_nil_iff]
  intro pe hpe
  have h0 : lookupEntry m pe.1 = some pe.2 := by
    apply lookupEntry_of_mem _ _ _ hm
    exact hpe
  simp [h0, rewindCandidate]

/-! ## Lemmas about the reconcile branch of `main` -/

theorem mem_keys_of_lookupEntry (m : List (Path × Entry)) (k : Path) (e : Entry)
    (h : lookupEntry m k = some e) : k ∈ m.map Prod.fst := by
  by_contra hc
  rw [(lookupEntry_eq_none m k).mpr hc] at h
  cases h

theorem rewindCandidate_iff (se le : Entry) :
    rewindCandidate se le = true ↔ se.mtime < le.mtime ∧ le.hash = se.hash := by
  simp [rewindCandidate]

theorem mem_rewindCandidates (stored live : List (Path × Entry))
    (pe : Path × Entry) :
    pe ∈ rewindCandidates stored live ↔
      pe ∈ stored ∧ ∃ le, lookupEntry live pe.1 = some le ∧
        rewindCandidate pe.2 le = true := by
  unfold rewindCandidates
  rw [List.mem_filter]
  constructor
  · rintro ⟨h1, h2⟩
    cases h : lookupEntry live pe.1 with
    | some le =>
      rw [h] at h2
      exact ⟨h1, le, rfl, h2⟩
    | none =>
      rw [h] at h2
      cases h2
  · rintro ⟨h1, le, h2, h3⟩
    refine ⟨h1, ?_⟩
    rw [h2]
    exact h3

theorem NodupKeys_rewindCandidates (stored live : List (Path × Entry))
    (hns : NodupKeys stored) : NodupKeys (rewindCandidates stored live) :=
  NodupKeys_filter stored _ hns

theorem mem_rewindCandidates_pair (stored live : List (Path × Entry))
    (k : Path) (e : Entry) :
    (k, e) ∈ rewindCandidates stored live ↔
      (k, e) ∈ stored ∧ ∃ le, lookupEntry live k = some le ∧
        rewindCandidate e le = true := by
  rw [mem_rewindCandidates]

theorem compute_ok_flags (H : Bytes → Bytes) (root : Path) (tree : FsTree)
    (dat : Data) (h : Data.compute H root tree = .ok dat) :
    ∀ pst ∈ walk tree, flagsOk pst.2 = true := by
  intro pst hmem
  cases hq : flagsOk pst.2 with
  | false =>
    have := (compute_err_iff H root tree).mpr ⟨pst, hmem, hq⟩
    rw [this] at h
    cases h
  | true => rfl

theorem compute_of_walk_flags (H : Bytes → Bytes) (root : Path) (t : FsTree)
    (h : ∀ pst ∈ walk t, flagsOk pst.2 = true) :
    Data.compute H root t = .ok ⟨(walk t).map (entryOf H root), root⟩ := by
  rw [show Data.compute H root t =
    (match computeEntries H root (walk t) with
     | .error e => .error e
     | .ok es => .ok { data := es, root := root }) from rfl,
    computeEntries_ok H root (walk t) h]

theorem reconcile_absent (dry : Bool) (root : Path) (live : Data) :
    reconcile dry root live .absent =
      .ok { mutations := [], saved := some live, report := none, announced := [] } :=
  rfl

theorem reconcile_valid (dry : Bool) (root : Path) (live d : Data)
    (hroot : d.root = root) :
    reconcile dry root live (.valid d) = .ok (reconcileCore dry live d) := by
  simp [reconcile, Data.load_cached, hroot]

theorem load_ok_cases (root : Path) (sf : StateFile) (stored : Data)
    (h : Data.load_cached root sf = .ok stored) :
    sf = .valid stored ∧ stored.root = root := by
  cases sf with
  | absent => simp [Data.load_cached] at h
  | corrupt => simp [Data.load_cached] at h
  | valid d =>
    by_cases hr : d.root = root
    · simp only [Data.load_cached, if_pos hr] at h
      injection h with h1
      subst h1
      exact ⟨rfl, hr⟩
    · simp [Data.load_cached, hr] at h

theorem reconcile_of_load (dry : Bool) (root : Path) (live : Data)
    (sf : StateFile) (stored : Data)
    (hload : Data.load_cached root sf = .ok stored) :
    reconcile dry root live sf = .ok (reconcileCore dry live stored) := by
  obtain ⟨h1, h2⟩ := load_ok_cases root sf stored hload
  subst h1
  exact reconcile_valid dry root live stored h2

theorem reconcileCore_dry (live stored : Data) :
    reconcileCore true live stored =
      { mutations := [], saved := none, report := some 0,
        announced := (rewindCandidates stored.data live.data).map Prod.fst } :=
  rfl

theorem reconcileCore_wet (live stored : Data) :
    reconcileCore false live stored =
      { mutations := (rewindCandidates stored.data live.data).map
          (fun pe => (pe.1, pe.2.mtime))
        saved := some ⟨extendMap live.data (rewindCandidates stored.data live.data),
          live.root⟩
        report := some (rewindCandidates stored.data live.data).length
        announced := (rewindCandidates stored.data live.data).map Prod.fst } :=
  rfl

theorem main_ok_elim (H : Bytes → Bytes) (dry : Bool) (root : Path)
    (w w' : World) (r : RunResult) (h : main H dry root w = .ok (w', r)) :
    Data.compute H root w.tree ≠ .error .ioError ∧
    ∃ live, Data.compute H root w.tree = .ok live ∧
      reconcile dry root live w.state = .ok r ∧
      w'.tree = r.mutations.foldl (applyMut root) w.tree ∧
      w'.state = (match r.saved with | some d => .valid d | none => w.state) := by
  unfold main at h
  cases hc : Data.compute H root w.tree with
  | error e =>
    rw [hc] at h
    simp at h
  | ok live =>
    rw [hc] at h
    dsimp only at h
    cases hr : reconcile dry root live w.state with
    | error e =>
      rw [hr] at h
      simp at h
    | ok r' =>
      rw [hr] at h
      dsimp only at h
      injection h with h3
      injection h3 with h4 h5
      subst h5
      constructor
      · intro hcontra
        cases hcontra
      · refine ⟨live, rfl, hr, ?_, ?_⟩
        · rw [← h4]
        · rw [← h4]

/-! ## The claims -/

/-- Claim C7: `Data::load_cached` fails with a `RootMismatch` error whenever the
recorded root of the deserialized snapshot differs from the requested root, and
returns the deserialized snapshot otherwise. -/
theorem load_cached_root_check (root : Path) (d : Data) :
    (d.root ≠ root → Data.load_cached root (.valid d) = .error .rootMismatch)
    ∧ (d.root = root → Data.load_cached root (.valid d) = .ok d) := by
  constructor
  · intro h
    simp [Data.load_cached, h]
  · intro h
    simp [Data.load_cached, h]

/-- Witness for C7 at a concrete mismatching and a concrete matching root. -/
theorem load_cached_root_check_witness :
    Data.load_cached ["r"] (.valid ⟨[], ["s"]⟩) = .error .rootMismatch
    ∧ Data.load_cached ["r"] (.valid ⟨[], ["r"]⟩) = .ok ⟨[], ["r"]⟩ :=
  ⟨(load_cached_root_check ["r"] ⟨[], ["s"]⟩).1 (by decide),
   (load_cached_root_check ["r"] ⟨[], ["r"]⟩).2 rfl⟩

/-- Claim C2: when no stored state file exists (first run), the run persists the
freshly computed live snapshot as-is, performs zero mtime mutations (the tree is
returned unchanged, and no `set_file_mtime` call is recorded), reports no
reconciliation, and terminates successfully. -/
theorem first_run_baseline (H : Bytes → Bytes) (dry : Bool) (root : Path)
    (tree : FsTree) (live : Data)
    (hc : Data.compute H root tree = .ok live) :
    main H dry root ⟨tree, .absent⟩ =
      .ok (⟨tree, .valid live⟩,
        { mutations := [], saved := some live, report := none, announced := [] }) := by
  unfold main
  simp only []
  rw [hc]
  rfl

/-- Witness for C2 on a one-file root. -/
theorem first_run_baseline_witness :
    main (fun b => b) false ["r"]
        ⟨.fileCons "a" ⟨[1], 5, true, true, true, true⟩ .nil, .absent⟩
      = .ok (⟨.fileCons "a" ⟨[1], 5, true, true, true, true⟩ .nil,
             .valid ⟨[(["r", "a"], ⟨[1], 5⟩)], ["r"]⟩⟩,
             ⟨[], some ⟨[(["r", "a"], ⟨[1], 5⟩)], ["r"]⟩, none, []⟩) :=
  first_run_baseline (fun b => b) false ["r"] _ ⟨[(["r", "a"], ⟨[1], 5⟩)], ["r"]⟩ rfl

/-- Claim C4 counterexample: in dry-run, with one rewind candidate (stored mtime
5, live mtime 9, equal hashes), the run succeeds but the printed
`"{} files rewinded"` count is 0 (only the per-file `"Rewinding ..."` line
mentions the candidate), while the number of rewind candidates is 1 — so the
reported count does not equal the number of candidates. -/
theorem dry_run_count_cex :
    reconcile true ["r"] ⟨[(["r", "a"], ⟨[7], 9⟩)], ["r"]⟩
        (.valid ⟨[(["r", "a"], ⟨[7], 5⟩)], ["r"]⟩)
      = .ok { mutations := [], saved := none, report := some 0,
              announced := [["r", "a"]] }
    ∧ (rewindCandidates [(["r", "a"], ⟨[7], 5⟩)] [(["r", "a"], ⟨[7], 9⟩)]).length
        = 1 :=
  ⟨rfl, rfl⟩

/-- Claim C4, amended: a dry run still performs the live-vs-stored comparison
and announces every rewind candidate individually with a `"Rewinding ..."` log
line, but the reported count of rewound files is the number of rewinds actually
applied — 0 under dry-run, the candidate count otherwise. -/
theorem dry_run_reporting (dry : Bool) (root : Path) (live : Data)
    (sf : StateFile) (stored : Data) (r : RunResult)
    (hload : Data.load_cached root sf = .ok stored)
    (hrun : reconcile dry root live sf = .ok r) :
    r.announced = (rewindCandidates stored.data live.data).map Prod.fst
    ∧ r.report = some (if dry then 0
        else (rewindCandidates stored.data live.data).length) := by
  rw [reconcile_of_load dry root live sf stored hload] at hrun
  injection hrun with h
  subst h
  cases dry
  · rw [reconcileCore_wet]
    exact ⟨rfl, rfl⟩
  · rw [reconcileCore_dry]
    exact ⟨rfl, rfl⟩

/-- Witness for the amended C4 on the counterexample input. -/
theorem dry_run_reporting_witness :
    (⟨[], none, some 0, [["r", "a"]]⟩ : RunResult).announced
      = (rewindCandidates [(["r", "a"], ⟨[7], 5⟩)]
          [(["r", "a"], ⟨[7], 9⟩)]).map Prod.fst
    ∧ (⟨[], none, some 0, [["r", "a"]]⟩ : RunResult).report
      = some (if true then 0
          else (rewindCandidates [(["r", "a"], ⟨[7], 5⟩)]
            [(["r", "a"], ⟨[7], 9⟩)]).length) :=
  dry_run_reporting true ["r"] ⟨[(["r", "a"], ⟨[7], 9⟩)], ["r"]⟩
    (.valid ⟨[(["r", "a"], ⟨[7], 5⟩)], ["r"]⟩) ⟨[(["r", "a"], ⟨[7], 5⟩)], ["r"]⟩
    ⟨[], none, some 0, [["r", "a"]]⟩ rfl rfl

/-- Claim C5 counterexample: a root with a single regular file on which every
I/O operation fails (open, read, both stats).  The walkdir `is_file` filter
drops it silently (`e.metadata().map_or(false, ..)`), so `Data::compute`
returns a successful, empty — best-effort — snapshot instead of aborting with
an I/O error. -/
theorem snapshot_skip_cex :
    Data.compute (fun b => b) ["r"]
        (.fileCons "a" ⟨[1, 2], 5, false, false, false, false⟩ .nil)
      = .ok ⟨[], ["r"]⟩ :=
  rfl

/-- Claim C5, amended: the snapshot builder aborts with `IoError` exactly when
some file that survives the traversal filters cannot be opened, read, or
stat-ed inside `Entry::from_file`; on success the snapshot contains precisely
the surviving files (no partial snapshot).  A file whose traversal-time
`e.metadata()` stat fails is silently omitted instead of aborting. -/
theorem compute_abort_characterization (H : Bytes → Bytes) (root : Path)
    (tree : FsTree) :
    (Data.compute H root tree = .error .ioError ↔
      ∃ pst ∈ walk tree, flagsOk pst.2 = false)
    ∧ (∀ dat, Data.compute H root tree = .ok dat →
        dat.data = (walk tree).map (entryOf H root)) :=
  ⟨compute_err_iff H root tree,
   fun dat h => (compute_ok_data H root tree dat h).1⟩

/-- Witness for the amended C5: a failing read aborts the computation, and a
fully successful walk yields exactly the walked files. -/
theorem compute_abort_characterization_witness :
    Data.compute (fun b => b) ["r"]
        (.fileCons "a" ⟨[1], 5, true, false, true, true⟩ .nil)
      = .error .ioError
    ∧ (⟨[(["r", "a"], ⟨[1], 5⟩)], ["r"]⟩ : Data).data
      = (walk (.fileCons "a" ⟨[1], 5, true, true, true, true⟩ .nil)).map
          (entryOf (fun b => b) ["r"]) :=
  ⟨(compute_abort_characterization (fun b => b) ["r"]
      (.fileCons "a" ⟨[1], 5, true, false, true, true⟩ .nil)).1.mpr
      ⟨(["a"], ⟨[1], 5, true, false, true, true⟩), by decide, rfl⟩,
   (compute_abort_characterization (fun b => b) ["r"]
      (.fileCons "a" ⟨[1], 5, true, true, true, true⟩ .nil)).2
      ⟨[(["r", "a"], ⟨[1], 5⟩)], ["r"]⟩ rfl⟩

/-- Claim C8: with dry-run enabled, a run whose root contains a file meeting
the rewind condition still completes successfully, and leaves both the tree
(every on-disk mtime) and the state file exactly as they were. -/
theorem dry_run_frame (H : Bytes → Bytes) (root : Path) (tree : FsTree)
    (sf : StateFile) (live stored : Data) (p : Path) (se le : Entry)
    (hc : Data.compute H root tree = .ok live)
    (hload : Data.load_cached root sf = .ok stored)
    (hs : lookupEntry stored.data p = some se)
    (hl : lookupEntry live.data p = some le)
    (hcand : rewindCandidate se le = true) :
    main H true root ⟨tree, sf⟩ = .ok (⟨tree, sf⟩, reconcileCore true live stored) := by
  unfold main
  dsimp only
  rw [hc]
  dsimp only
  rw [reconcile_of_load true root live sf stored hload]
  rfl

/-- Witness for C8: a concrete dry run over a candidate file leaves the world
unchanged. -/
theorem dry_run_frame_witness :
    main (fun b => b) true ["r"]
        ⟨.fileCons "a" ⟨[7], 9, true, true, true, true⟩ .nil,
          .valid ⟨[(["r", "a"], ⟨[7], 5⟩)], ["r"]⟩⟩
      = .ok (⟨.fileCons "a" ⟨[7], 9, true, true, true, true⟩ .nil,
              .valid ⟨[(["r", "a"], ⟨[7], 5⟩)], ["r"]⟩⟩,
             reconcileCore true ⟨[(["r", "a"], ⟨[7], 9⟩)], ["r"]⟩
               ⟨[(["r", "a"], ⟨[7], 5⟩)], ["r"]⟩) :=
  dry_run_frame (fun b => b) ["r"] (.fileCons "a" ⟨[7], 9, true, true, true, true⟩ .nil)
    (.valid ⟨[(["r", "a"], ⟨[7], 5⟩)], ["r"]⟩)
    ⟨[(["r", "a"], ⟨[7], 9⟩)], ["r"]⟩ ⟨[(["r", "a"], ⟨[7], 5⟩)], ["r"]⟩
    ["r", "a"] ⟨[7], 5⟩ ⟨[7], 9⟩ rfl rfl rfl rfl (by decide)

/-- Claim C1: for a path present in both snapshots, the run rewinds the on-disk
mtime to the stored mtime and records the stored entry as the corrected entry
in the saved snapshot exactly when the live mtime strictly advanced, the hashes
are equal, and dry-run is off; otherwise no mtime mutation at all is performed
for that path. -/
theorem rewind_decision (dry : Bool) (root : Path) (live : Data)
    (sf : StateFile) (stored : Data) (r : RunResult) (p : Path) (se le : Entry)
    (hload : Data.load_cached root sf = .ok stored)
    (hrun : reconcile dry root live sf = .ok r)
    (hns : NodupKeys stored.data)
    (hs : lookupEntry stored.data p = some se)
    (hl : lookupEntry live.data p = some le) :
    (((p, se.mtime) ∈ r.mutations ∧
        ∃ d, r.saved = some d ∧ lookupEntry d.data p = some se)
      ↔ (se.mtime < le.mtime ∧ le.hash = se.hash ∧ dry = false))
    ∧ ((¬(se.mtime < le.mtime) ∨ le.hash ≠ se.hash) →
        ∀ tmv, (p, tmv) ∉ r.mutations) := by
  rw [reconcile_of_load dry root live sf stored hload] at hrun
  injection hrun with h
  subst h
  have hcnd : NodupKeys (rewindCandidates stored.data live.data) :=
    NodupKeys_rewindCandidates stored.data live.data hns
  have hmut_elim : ∀ tmv, (p, tmv) ∈ ((rewindCandidates stored.data live.data).map
      (fun pe => (pe.1, pe.2.mtime))) →
      se.mtime < le.mtime ∧ le.hash = se.hash ∧ tmv = se.mtime := by
    intro tmv hmem
    rcases List.mem_map.mp hmem with ⟨pe, hpe, hmap⟩
    obtain ⟨k0, e0⟩ := pe
    injection hmap with hm1 hm2
    have hm1' : k0 = p := hm1
    have hm2' : e0.mtime = tmv := hm2
    rw [hm1'] at hpe
    rcases (mem_rewindCandidates_pair stored.data live.data p e0).mp hpe
      with ⟨hmem_s, le', hlook', hrc⟩
    have h5 : lookupEntry stored.data p = some e0 :=
      lookupEntry_of_mem stored.data p e0 hns hmem_s
    rw [h5] at hs
    injection hs with hs2
    rw [hl] at hlook'
    injection hlook' with hle2
    rw [hs2] at hrc
    rw [← hle2] at hrc
    obtain ⟨ha, hb⟩ := (rewindCandidate_iff se le).mp hrc
    exact ⟨ha, hb, by rw [← hm2', hs2]⟩
  cases dry with
  | true =>
    rw [reconcileCore_dry]
    constructor
    · constructor
      · rintro ⟨hmem, _⟩
        simp at hmem
      · rintro ⟨_, _, hfalse⟩
        cases hfalse
    · intro _ tmv hmem
      simp at hmem
  | false =>
    rw [reconcileCore_wet]
    constructor
    · constructor
      · rintro ⟨hmem, _⟩
        obtain ⟨ha, hb, _⟩ := hmut_elim se.mtime hmem
        exact ⟨ha, hb, rfl⟩
      · rintro ⟨ha, hb, _⟩
        have hpe_mem : (p, se) ∈ rewindCandidates stored.data live.data := by
          rw [mem_rewindCandidates]
          exact ⟨mem_of_lookupEntry stored.data p se hs,
            le, hl, (rewindCandidate_iff se le).mpr ⟨ha, hb⟩⟩
        constructor
        · exact List.mem_map_of_mem (fun pe => (pe.1, pe.2.mtime)) hpe_mem
        · refine ⟨⟨extendMap live.data (rewindCandidates stored.data live.data),
            live.root⟩, rfl, ?_⟩
          rw [lookupEntry_extendMap _ _ _ hcnd,
            lookupEntry_of_mem _ _ _ hcnd hpe_mem]
    · intro hneg tmv hmem
      obtain ⟨ha, hb, _⟩ := hmut_elim tmv hmem
      rcases hneg with hn | hn
      · exact hn ha
      · exact hn hb

/-- Witness for C1: on a concrete candidate (stored mtime 5, live mtime 9,
equal hashes, dry-run off) the mutation is issued. -/
theorem rewind_decision_witness :
    (["r", "a"], (5 : Nat)) ∈ (reconcileCore false
      (⟨[(["r", "a"], ⟨[7], 9⟩)], ["r"]⟩ : Data)
      (⟨[(["r", "a"], ⟨[7], 5⟩)], ["r"]⟩ : Data)).mutations := by
  have h := rewind_decision false ["r"] ⟨[(["r", "a"], ⟨[7], 9⟩)], ["r"]⟩
    (.valid ⟨[(["r", "a"], ⟨[7], 5⟩)], ["r"]⟩) ⟨[(["r", "a"], ⟨[7], 5⟩)], ["r"]⟩
    (reconcileCore false ⟨[(["r", "a"], ⟨[7], 9⟩)], ["r"]⟩
      ⟨[(["r", "a"], ⟨[7], 5⟩)], ["r"]⟩)
    ["r", "a"] ⟨[7], 5⟩ ⟨[7], 9⟩ rfl rfl (by simp [NodupKeys]) rfl rfl
  exact (h.1.mpr ⟨by decide, rfl, rfl⟩).1

/-- Claim C3: the persisted snapshot has exactly the key set of the live one;
rewound paths map to their stored entries, all other live paths keep their
freshly computed entries, and paths present only in the stored snapshot are
absent (and the run succeeded, so they caused no error). -/
theorem merged_snapshot_shape (dry : Bool) (root : Path) (live : Data)
    (sf : StateFile) (stored : Data) (r : RunResult) (newD : Data)
    (hload : Data.load_cached root sf = .ok stored)
    (hrun : reconcile dry root live sf = .ok r)
    (hns : NodupKeys stored.data)
    (hsaved : r.saved = some newD) :
    (∀ p, (lookupEntry newD.data p).isSome = (lookupEntry live.data p).isSome)
    ∧ (∀ p se le, lookupEntry stored.data p = some se →
        lookupEntry live.data p = some le → rewindCandidate se le = true →
        lookupEntry newD.data p = some se)
    ∧ (∀ p le, lookupEntry live.data p = some le →
        (∀ se, lookupEntry stored.data p = some se →
          rewindCandidate se le = false) →
        lookupEntry newD.data p = some le)
    ∧ (∀ p, lookupEntry live.data p = none → lookupEntry newD.data p = none) := by
  rw [reconcile_of_load dry root live sf stored hload] at hrun
  injection hrun with h
  subst h
  cases dry with
  | true =>
    rw [reconcileCore_dry] at hsaved
    cases hsaved
  | false =>
    rw [reconcileCore_wet] at hsaved
    injection hsaved with h5
    have hcnd : NodupKeys (rewindCandidates stored.data live.data) :=
      NodupKeys_rewindCandidates stored.data live.data hns
    have hlk : ∀ p, lookupEntry newD.data p =
        match lookupEntry (rewindCandidates stored.data live.data) p with
        | some e => some e
        | none => lookupEntry live.data p := by
      intro p
      rw [← h5]
      exact lookupEntry_extendMap _ _ _ hcnd
    refine ⟨?_, ?_, ?_, ?_⟩
    · intro p
      rw [hlk p]
      cases hq : lookupEntry (rewindCandidates stored.data live.data) p with
      | some e =>
        rcases (mem_rewindCandidates_pair stored.data live.data p e).mp
          (mem_of_lookupEntry _ _ _ hq) with ⟨_, le, hle, _⟩
        rw [hle]
        rfl
      | none => rfl
    · intro p se le hsp hlp hrc
      have hmem : (p, se) ∈ rewindCandidates stored.data live.data := by
        rw [mem_rewindCandidates]
        exact ⟨mem_of_lookupEntry stored.data p se hsp, le, hlp, hrc⟩
      rw [hlk p, lookupEntry_of_mem _ _ _ hcnd hmem]
    · intro p le hlp hnone
      rw [hlk p]
      cases hq : lookupEntry (rewindCandidates stored.data live.data) p with
      | some e =>
        exfalso
        rcases (mem_rewindCandidates_pair stored.data live.data p e).mp
          (mem_of_lookupEntry _ _ _ hq) with ⟨hmem_s, le', hle', hrc⟩
        rw [hlp] at hle'
        injection hle' with hle2
        have h6 : lookupEntry stored.data p = some e :=
          lookupEntry_of_mem stored.data p e hns hmem_s
        have h7 := hnone e h6
        rw [← hle2] at hrc
        rw [h7] at hrc
        cases hrc
      | none => exact hlp
    · intro p hlp
      rw [hlk p]
      cases hq : lookupEntry (rewindCandidates stored.data live.data) p with
      | some e =>
        exfalso
        rcases (mem_rewindCandidates_pair stored.data live.data p e).mp
          (mem_of_lookupEntry _ _ _ hq) with ⟨_, le', hle', _⟩
        rw [hlp] at hle'
        cases hle'
      | none => exact hlp

/-- Witness for C3: a root with a touched-but-unchanged file `a` (rewound) and
a genuinely edited file `b` (kept live): the saved snapshot holds the stored
entry for `a` and the live entry for `b`, and the deleted stored path `c` stays
absent. -/
theorem merged_snapshot_shape_witness :
    lookupEntry (extendMap
        [(["r", "a"], ⟨[7], 9⟩), (["r", "b"], ⟨[9], 9⟩)]
        (rewindCandidates
          [(["r", "a"], ⟨[7], 5⟩), (["r", "b"], ⟨[8], 5⟩), (["r", "c"], ⟨[3], 5⟩)]
          [(["r", "a"], ⟨[7], 9⟩), (["r", "b"], ⟨[9], 9⟩)]))
      ["r", "a"] = some ⟨[7], 5⟩
    ∧ lookupEntry (extendMap
        [(["r", "a"], ⟨[7], 9⟩), (["r", "b"], ⟨[9], 9⟩)]
        (rewindCandidates
          [(["r", "a"], ⟨[7], 5⟩), (["r", "b"], ⟨[8], 5⟩), (["r", "c"], ⟨[3], 5⟩)]
          [(["r", "a"], ⟨[7], 9⟩), (["r", "b"], ⟨[9], 9⟩)]))
      ["r", "b"] = some ⟨[9], 9⟩
    ∧ lookupEntry (extendMap
        [(["r", "a"], ⟨[7], 9⟩), (["r", "b"], ⟨[9], 9⟩)]
        (rewindCandidates
          [(["r", "a"], ⟨[7], 5⟩), (["r", "b"], ⟨[8], 5⟩), (["r", "c"], ⟨[3], 5⟩)]
          [(["r", "a"], ⟨[7], 9⟩), (["r", "b"], ⟨[9], 9⟩)]))
      ["r", "c"] = none := by
  have h := merged_snapshot_shape false ["r"]
    ⟨[(["r", "a"], ⟨[7], 9⟩), (["r", "b"], ⟨[9], 9⟩)], ["r"]⟩
    (.valid ⟨[(["r", "a"], ⟨[7], 5⟩), (["r", "b"], ⟨[8], 5⟩),
      (["r", "c"], ⟨[3], 5⟩)], ["r"]⟩)
    ⟨[(["r", "a"], ⟨[7], 5⟩), (["r", "b"], ⟨[8], 5⟩), (["r", "c"], ⟨[3], 5⟩)], ["r"]⟩
    (reconcileCore false
      ⟨[(["r", "a"], ⟨[7], 9⟩), (["r", "b"], ⟨[9], 9⟩)], ["r"]⟩
      ⟨[(["r", "a"], ⟨[7], 5⟩), (["r", "b"], ⟨[8], 5⟩), (["r", "c"], ⟨[3], 5⟩)], ["r"]⟩)
    ⟨extendMap
        [(["r", "a"], ⟨[7], 9⟩), (["r", "b"], ⟨[9], 9⟩)]
        (rewindCandidates
          [(["r", "a"], ⟨[7], 5⟩), (["r", "b"], ⟨[8], 5⟩), (["r", "c"], ⟨[3], 5⟩)]
          [(["r", "a"], ⟨[7], 9⟩), (["r", "b"], ⟨[9], 9⟩)]), ["r"]⟩
    rfl rfl (by simp [NodupKeys]) rfl
  refine ⟨h.2.1 ["r", "a"] ⟨[7], 5⟩ ⟨[7], 9⟩ rfl rfl (by decide),
    h.2.2.1 ["r", "b"] ⟨[9], 9⟩ rfl ?_, h.2.2.2 ["r", "c"] rfl⟩
  intro se hse
  injection hse with h6
  rw [← h6]
  decide

theorem dirAt_cons (m1 : String) (q1 : List String) (t : FsTree) :
    dirAt (m1 :: q1) t =
      match findEntry t m1 with
      | some (.inr cs') => if q1 = [] then some (m1, cs') else dirAt q1 cs'
      | _ => none := by
  cases q1 with
  | nil =>
    cases h : findEntry t m1 with
    | none => simp [dirAt, h]
    | some v =>
      cases v with
      | inl st => simp [dirAt, h]
      | inr cs' => simp [dirAt, h]
  | cons m2 q2 =>
    cases h : findEntry t m1 with
    | none => simp [dirAt, h]
    | some v =>
      cases v with
      | inl st => simp [dirAt, h]
      | inr cs' => simp [dirAt, h]

theorem wf_findEntry (t : FsTree) (m1 : String) (cs' : FsTree)
    (hwf : wf t = true) (h : findEntry t m1 = some (.inr cs')) :
    wf cs' = true := by
  induction t with
  | nil => simp [findEntry] at h
  | fileCons n st rest ih =>
    have h1 := (Bool.and_eq_true ..).mp hwf
    by_cases hn : n = m1
    · simp [findEntry, hn] at h
    · rw [show findEntry (.fileCons n st rest) m1 = findEntry rest m1 from by
        simp [findEntry, hn]] at h
      exact ih h1.2 h
  | dirCons n cs0 rest ihcs ihrest =>
    have h1 := (Bool.and_eq_true ..).mp hwf
    have h2 := (Bool.and_eq_true ..).mp h1.1
    by_cases hn : n = m1
    · simp only [findEntry, if_pos hn] at h
      injection h with h3
      injection h3 with h4
      rw [← h4]
      exact h2.2
    · rw [show findEntry (.dirCons n cs0 rest) m1 = findEntry rest m1 from by
        simp [findEntry, hn]] at h
      exact ihrest h1.2 h

theorem walk_mem_source (t : FsTree) (pst : List String × FileStat)
    (m1 : String) (tl : List String)
    (hwf : wf t = true) (hmem : pst ∈ walk t) (hp : pst.1 = m1 :: tl) :
    (∃ st, findEntry t m1 = some (.inl st)) ∨
    (∃ cs', findEntry t m1 = some (.inr cs') ∧ keepDir m1 cs' = true ∧
      ∃ pst', pst' ∈ walk cs' ∧ tl = pst'.1) := by
  induction t with
  | nil => simp [walk] at hmem
  | fileCons n st rest ih =>
    have h1 : ((names rest).contains n) = false ∧ wf rest = true := by
      have := (Bool.and_eq_true ..).mp hwf
      exact ⟨by simpa using this.1, this.2⟩
    rcases List.mem_append.mp hmem with h2 | h2
    · by_cases hk : keepFile n && st.filterStatOk
      · simp [walk, hk] at h2
        have hn1 : n = m1 := by
          have h3 : pst.1 = [n] := by rw [h2]
          rw [h3] at hp
          injection hp with h4 _
        left
        exact ⟨st, by simp [findEntry, hn1]⟩
      · simp [walk, hk] at h2
    · by_cases hnm : n = m1
      · exfalso
        have h3 : ((names rest).contains m1) = false := by
          rw [← hnm]
          exact h1.1
        exact walk_path_head_not_mem rest m1 tl h3 pst h2 hp
      · rw [show findEntry (.fileCons n st rest) m1 = findEntry rest m1 from by
          simp [findEntry, hnm]]
        exact ih h1.2 h2
  | dirCons n cs0 rest ihcs ihrest =>
    have h1 : ((names rest).contains n) = false ∧ wf cs0 = true ∧ wf rest = true := by
      have h2 := (Bool.and_eq_true ..).mp hwf
      have h3 := (Bool.and_eq_true ..).mp h2.1
      exact ⟨by simpa using h3.1, h3.2, h2.2⟩
    rcases List.mem_append.mp hmem with h2 | h2
    · by_cases hk : keepDir n cs0
      · simp only [walk, hk, if_true] at h2
        rcases List.mem_map.mp h2 with ⟨pst', hpst', hmap⟩
        have h3 : pst.1 = n :: pst'.1 := by rw [← hmap]
        rw [h3] at hp
        injection hp with h4 h5
        right
        refine ⟨cs0, by simp [findEntry, h4.symm], ?_, pst', hpst', h5.symm⟩
        rw [← h4]
        exact hk
      · simp [walk, hk] at h2
    · by_cases hnm : n = m1
      · exfalso
        have h3 : ((names rest).contains m1) = false := by
          rw [← hnm]
          exact h1.1
        exact walk_path_head_not_mem rest m1 tl h3 pst h2 hp
      · rw [show findEntry (.dirCons n cs0 rest) m1 = findEntry rest m1 from by
          simp [findEntry, hnm]]
        exact ihrest h1.2.2 h2

theorem walk_no_pruned_subtree (q : List String) (t : FsTree) (m : String)
    (cs : FsTree) (hwf : wf t = true) (hfind : dirAt q t = some (m, cs))
    (hkeep : keepDir m cs = false) :
    ∀ pst ∈ walk t, ¬(q <+: pst.1) := by
  induction q generalizing t m cs with
  | nil => simp [dirAt] at hfind
  | cons m1 q1 ih =>
    intro pst hmem hpre
    rcases hpre with ⟨suf, hsuf⟩
    have hp : pst.1 = m1 :: (q1 ++ suf) := by rw [← hsuf]; rfl
    rw [dirAt_cons] at hfind
    cases hfe : findEntry t m1 with
    | none => rw [hfe] at hfind; cases hfind
    | some v =>
      cases v with
      | inl st => rw [hfe] at hfind; cases hfind
      | inr cs' =>
        rw [hfe] at hfind
        rcases walk_mem_source t pst m1 (q1 ++ suf) hwf hmem hp with
          ⟨st, hst⟩ | ⟨cs'', hcs, hkeep'', pst', hpst', htl⟩
        · rw [hfe] at hst
          injection hst with h3
          cases h3
        · rw [hfe] at hcs
          injection hcs with h3
          injection h3 with h4
          cases q1 with
          | nil =>
            simp only [if_pos rfl] at hfind
            injection hfind with h5
            injection h5 with h6 h7
            rw [← h6, ← h7] at hkeep
            rw [← h4] at hkeep''
            rw [hkeep''] at hkeep
            cases hkeep
          | cons m2 q2 =>
            simp only [if_neg (by simp : ¬(m2 :: q2 = []))] at hfind
            have hwcs : wf cs' = true := wf_findEntry t m1 cs' hwf hfe
            have hq1pre : (m2 :: q2) <+: pst'.1 := ⟨suf, by rw [htl]⟩
            rw [← h4] at hpst'
            exact ih cs' m cs hwcs hfind hkeep pst' hpst' hq1pre

/-- Claim C6: a directory that contains the `CACHEDIR.TAG` marker or whose
name starts with `.` contributes no entry at all to the computed snapshot:
no snapshot key lies in its subtree. -/
theorem pruned_subtree_absent (H : Bytes → Bytes) (root : Path) (tree : FsTree)
    (q : List String) (m : String) (cs : FsTree) (dat : Data)
    (hwf : wf tree = true)
    (hdir : dirAt q tree = some (m, cs))
    (hkeep : keepDir m cs = false)
    (hc : Data.compute H root tree = .ok dat) :
    ∀ k ∈ dat.data.map Prod.fst, ¬((root ++ q) <+: k) := by
  intro k hk hpre
  rw [compute_keys H root tree dat hc] at hk
  rcases List.mem_map.mp hk with ⟨p, hp, hkp⟩
  rcases List.mem_map.mp hp with ⟨pst, hpst, hfst⟩
  rw [← hkp] at hpre
  have hqp : q <+: p := (List.prefix_append_right_inj root).mp hpre
  rw [← hfst] at hqp
  exact walk_no_pruned_subtree q tree m cs hwf hdir hkeep pst hpst hqp

/-- Witness for C6: a directory `c` containing `CACHEDIR.TAG` (and a file `x`
that would otherwise qualify) contributes nothing; only the sibling `y`
appears, and no key extends `r/c`. -/
theorem pruned_subtree_absent_witness :
    ¬((["r", "c"] : Path) <+: ["r", "y"]) :=
  pruned_subtree_absent (fun b => b) ["r"]
    (.dirCons "c"
      (.fileCons "CACHEDIR.TAG" ⟨[], 0, true, true, true, true⟩
        (.fileCons "x" ⟨[2], 6, true, true, true, true⟩ .nil))
      (.fileCons "y" ⟨[3], 7, true, true, true, true⟩ .nil))
    ["c"] "c"
    (.fileCons "CACHEDIR.TAG" ⟨[], 0, true, true, true, true⟩
      (.fileCons "x" ⟨[2], 6, true, true, true, true⟩ .nil))
    ⟨[(["r", "y"], ⟨[3], 7⟩)], ["r"]⟩
    (by decide) rfl rfl rfl
    ["r", "y"] (by decide)

/-- Claim C10: the state file `.hashprint` is never an entry of any computed
snapshot (its name begins with the hidden prefix, so the walkdir filter always
excludes it), and it can never be a rewind candidate. -/
theorem state_file_never_entry (H : Bytes → Bytes) (root : Path) (tree : FsTree)
    (dat : Data) (hc : Data.compute H root tree = .ok dat) :
    lookupEntry dat.data (hashes_file root) = none
    ∧ ∀ stored : List (Path × Entry),
        lookupEntry (rewindCandidates stored dat.data) (hashes_file root) = none := by
  have hmain : lookupEntry dat.data (hashes_file root) = none := by
    rw [lookupEntry_eq_none]
    intro hk
    rw [compute_keys H root tree dat hc] at hk
    rcases List.mem_map.mp hk with ⟨p, hp, hkp⟩
    rcases List.mem_map.mp hp with ⟨pst, hpst, hfst⟩
    obtain ⟨hd, tl, hcons, _, hdot⟩ := walk_head tree pst hpst
    have hp2 : p = [".hashprint"] := List.append_cancel_left hkp
    have hp3 : hd :: tl = [".hashprint"] := by
      rw [← hcons, hfst, hp2]
    injection hp3 with h5 _
    rw [h5] at hdot
    have : startsWithDot ".hashprint" = true := by decide
    rw [this] at hdot
    cases hdot
  refine ⟨hmain, ?_⟩
  intro stored
  rw [lookupEntry_eq_none]
  intro hk
  rcases List.mem_map.mp hk with ⟨pe, hpe, hfst⟩
  rcases (mem_rewindCandidates stored dat.data pe).mp hpe with ⟨_, le, hle, _⟩
  rw [hfst] at hle
  rw [hmain] at hle
  cases hle

/-- Witness for C10: a root that does contain a `.hashprint` file on disk still
produces a snapshot without it. -/
theorem state_file_never_entry_witness :
    lookupEntry [(["r", "a"], ⟨[1], 5⟩)] (hashes_file ["r"]) = none
    ∧ lookupEntry (rewindCandidates [(["r", ".hashprint"], ⟨[9], 1⟩)]
        [(["r", "a"], ⟨[1], 5⟩)]) (hashes_file ["r"]) = none := by
  have h := state_file_never_entry (fun b => b) ["r"]
    (.fileCons ".hashprint" ⟨[9], 1, true, true, true, true⟩
      (.fileCons "a" ⟨[1], 5, true, true, true, true⟩ .nil))
    ⟨[(["r", "a"], ⟨[1], 5⟩)], ["r"]⟩ rfl
  exact ⟨h.1, h.2 [(["r", ".hashprint"], ⟨[9], 1⟩)]⟩

/-- Recomputing the snapshot after the rewinds of a run reproduces exactly the
snapshot that run saved: rewound files now carry the stored mtime and their
content (hence hash) is unchanged, every other file is untouched. -/
theorem second_compute (H : Bytes → Bytes) (root : Path) (tree : FsTree)
    (live stored : Data) (hwf : wf tree = true)
    (hc : Data.compute H root tree = .ok live)
    (hns : NodupKeys stored.data) :
    Data.compute H root
      (((rewindCandidates stored.data live.data).map
        (fun pe => (pe.1, pe.2.mtime))).foldl (applyMut root) tree)
      = .ok ⟨extendMap live.data (rewindCandidates stored.data live.data), root⟩ := by
  have hflags : ∀ pst ∈ walk tree, flagsOk pst.2 = true :=
    compute_ok_flags H root tree live hc
  have hlive : live.data = (walk tree).map (entryOf H root) :=
    (compute_ok_data H root tree live hc).1
  have hnl : NodupKeys live.data := compute_keys_nodup H root tree live hwf hc
  have hcnd : NodupKeys (rewindCandidates stored.data live.data) :=
    NodupKeys_rewindCandidates stored.data live.data hns
  have hsub : ∀ pe ∈ rewindCandidates stored.data live.data,
      pe.1 ∈ live.data.map Prod.fst := by
    intro pe hpe
    rcases (mem_rewindCandidates stored.data live.data pe).mp hpe
      with ⟨_, le, hle, _⟩
    exact mem_keys_of_lookupEntry _ _ _ hle
  have hw2 : walk (((rewindCandidates stored.data live.data).map
      (fun pe => (pe.1, pe.2.mtime))).foldl (applyMut root) tree)
      = (walk tree).map (fun pst =>
          ((rewindCandidates stored.data live.data).map
            (fun pe => (pe.1, pe.2.mtime))).foldl
            (fun x mu => updAbs root mu x) pst) :=
    walk_foldl_applyMut root _ tree hwf
  have hflags2 : ∀ pst ∈ walk (((rewindCandidates stored.data live.data).map
      (fun pe => (pe.1, pe.2.mtime))).foldl (applyMut root) tree),
      flagsOk pst.2 = true := by
    rw [hw2]
    intro pst hpst
    rcases List.mem_map.mp hpst with ⟨pst0, hpst0, hmap⟩
    rw [← hmap, foldl_updAbs_flagsOk]
    exact hflags pst0 hpst0
  rw [compute_of_walk_flags H root _ hflags2]
  have hdata : ((walk tree).map (fun pst =>
      ((rewindCandidates stored.data live.data).map
        (fun pe => (pe.1, pe.2.mtime))).foldl
        (fun x mu => updAbs root mu x) pst)).map (entryOf H root)
      = extendMap live.data (rewindCandidates stored.data live.data) := by
    generalize hg : rewindCandidates stored.data live.data = cand
    rw [hg] at hcnd hsub
    rw [extendMap_eq_map _ _ hnl hcnd hsub, hlive, List.map_map, List.map_map]
    apply list_map_congr
    intro pst hpst
    have hFold : (cand.map
        (fun pe => (pe.1, pe.2.mtime))).foldl (fun x mu => updAbs root mu x) pst
        = match lookupEntry cand (root ++ pst.1) with
          | some se => (pst.1, setStatMtime pst.2 se.mtime)
          | none => pst := by
      rw [List.foldl_map]
      exact foldl_updAbs_cand root _ pst hcnd
    simp only [Function.comp, entryOf]
    rw [hFold]
    cases hlc : lookupEntry cand (root ++ pst.1) with
    | some se =>
      obtain ⟨seh, sem⟩ := se
      have hmemc := mem_of_lookupEntry _ _ _ hlc
      rw [← hg] at hmemc
      rcases (mem_rewindCandidates_pair stored.data live.data
          (root ++ pst.1) ⟨seh, sem⟩).mp hmemc with ⟨_, le, hle, hrc⟩
      rw [lookup_compute H root tree live pst hwf hc hpst] at hle
      injection hle with hle2
      obtain ⟨h1, h2⟩ := (rewindCandidate_iff _ _).mp hrc
      rw [← hle2] at h2
      dsimp only at h2
      dsimp only [setStatMtime]
      rw [h2]
    | none => rfl
  rw [hw2, hdata]

/-- Claim C9: running the tool twice in a row on the same root with no
intervening filesystem changes is idempotent: the second run issues zero
`set_file_mtime` calls, and the state file after the second run is identical
to the state file after the first run. -/
theorem idempotent_run (H : Bytes → Bytes) (root : Path) (w w1 w2 : World)
    (r1 r2 : RunResult)
    (hwf : wf w.tree = true) (hst : WfState w.state)
    (h1 : main H false root w = .ok (w1, r1))
    (h2 : main H false root w1 = .ok (w2, r2)) :
    r2.mutations = [] ∧ w2.state = w1.state := by
  obtain ⟨-, live, hc1, hr1, ht1, hs1⟩ := main_ok_elim H false root w w1 r1 h1
  obtain ⟨-, live2, hc2, hr2, ht2, hs2⟩ := main_ok_elim H false root w1 w2 r2 h2
  have hlroot : live.root = root := (compute_ok_data H root w.tree live hc1).2
  have hnl : NodupKeys live.data := compute_keys_nodup H root w.tree live hwf hc1
  cases hsf : w.state with
  | absent =>
    rw [hsf, reconcile_absent] at hr1
    injection hr1 with hr1'
    have hmut1 : r1.mutations = [] := by rw [← hr1']
    have hsav1 : r1.saved = some live := by rw [← hr1']
    rw [hmut1] at ht1
    have htree1 : w1.tree = w.tree := ht1
    rw [hsav1] at hs1
    have hstate1 : w1.state = .valid live := hs1
    rw [htree1, hc1] at hc2
    injection hc2 with hc2'
    rw [hstate1, ← hc2', reconcile_valid false root live live hlroot] at hr2
    injection hr2 with hr2'
    have hcand2 : rewindCandidates live.data live.data = [] :=
      rewindCandidates_self live.data hnl
    constructor
    · rw [← hr2', reconcileCore_wet]
      dsimp only
      rw [hcand2]
      rfl
    · rw [hs2, ← hr2', reconcileCore_wet]
      dsimp only
      rw [hcand2, hstate1]
      rfl
  | corrupt =>
    rw [hsf] at hr1
    simp [reconcile, Data.load_cached] at hr1
  | valid d =>
    have hnd : NodupKeys d.data := by
      rw [hsf] at hst
      exact hst
    rw [hsf] at hr1
    by_cases hdr : d.root = root
    · rw [reconcile_valid false root live d hdr] at hr1
      injection hr1 with hr1'
      have hmut1 : r1.mutations = (rewindCandidates d.data live.data).map
          (fun pe => (pe.1, pe.2.mtime)) := by
        rw [← hr1', reconcileCore_wet]
      have hsav1 : r1.saved = some ⟨extendMap live.data
          (rewindCandidates d.data live.data), live.root⟩ := by
        rw [← hr1', reconcileCore_wet]
      rw [hmut1] at ht1
      rw [hsav1] at hs1
      have hsc := second_compute H root w.tree live d hwf hc1 hnd
      have hlive2 : live2 = ⟨extendMap live.data
          (rewindCandidates d.data live.data), root⟩ := by
        rw [ht1] at hc2
        rw [hsc] at hc2
        injection hc2 with h6
        exact h6.symm
      have hX : NodupKeys (extendMap live.data
          (rewindCandidates d.data live.data)) :=
        NodupKeys_extendMap _ _ hnl
      have hnroot : (⟨extendMap live.data (rewindCandidates d.data live.data),
          live.root⟩ : Data).root = root := hlroot
      rw [hs1, reconcile_valid false root live2 _ hnroot] at hr2
      injection hr2 with hr2'
      have hcand2 : rewindCandidates
          (extendMap live.data (rewindCandidates d.data live.data))
          live2.data = [] := by
        rw [hlive2]
        exact rewindCandidates_self _ hX
      constructor
      · rw [← hr2', reconcileCore_wet]
        dsimp only
        rw [hcand2]
        rfl
      · rw [hs2, ← hr2', reconcileCore_wet]
        dsimp only
        rw [hcand2, hs1, hlive2, hlroot]
        rfl
    · simp [reconcile, Data.load_cached, hdr] at hr1

/-- Witness for C9: two successive runs on a fresh one-file root. -/
theorem idempotent_run_witness :
    (⟨[], some ⟨[(["r", "a"], ⟨[1], 5⟩)], ["r"]⟩, some 0, []⟩ : RunResult).mutations
      = []
    ∧ (⟨.fileCons "a" ⟨[1], 5, true, true, true, true⟩ .nil,
        .valid ⟨[(["r", "a"], ⟨[1], 5⟩)], ["r"]⟩⟩ : World).state
      = (⟨.fileCons "a" ⟨[1], 5, true, true, true, true⟩ .nil,
          .valid ⟨[(["r", "a"], ⟨[1], 5⟩)], ["r"]⟩⟩ : World).state :=
  idempotent_run (fun b => b) ["r"]
    ⟨.fileCons "a" ⟨[1], 5, true, true, true, true⟩ .nil, .absent⟩
    ⟨.fileCons "a" ⟨[1], 5, true, true, true, true⟩ .nil,
      .valid ⟨[(["r", "a"], ⟨[1], 5⟩)], ["r"]⟩⟩
    ⟨.fileCons "a" ⟨[1], 5, true, true, true, true⟩ .nil,
      .valid ⟨[(["r", "a"], ⟨[1], 5⟩)], ["r"]⟩⟩
    ⟨[], some ⟨[(["r", "a"], ⟨[1], 5⟩)], ["r"]⟩, none, []⟩
    ⟨[], some ⟨[(["r", "a"], ⟨[1], 5⟩)], ["r"]⟩, some 0, []⟩
    (by decide) True.intro rfl rfl

end MtimeRewind
